import Mathlib

/-!
# Verification of the OpenVote e-voting STARK core against its specification

Shallow embedding of the OpenVote repository (Rust) in Lean 4.  Field elements
of the 63-bit base field `f63` are modelled as `ZMod f63Modulus`; elliptic-curve
points of the prime-order curve group are modelled, where the curve library
(an external winterfell fork, not part of the sources) is needed, as elements
of a cyclic group `ZMod q` with the scalar field acting by multiplication.
Rust `Vec`/array values are modelled as `List`s, fixed-size arrays either as
`List`s with a length hypothesis or as index functions `ℕ → F`.
Rust assertion aborts and panics are modelled as explicit error outcomes.
-/

namespace OpenVote

/-! ## Global constants

Constants defined in the repository's sources are reproduced from them.
The widths of the external curve/hash gadget libraries (`utils/ecc`,
`utils/rescue`, consumed but not part of the sources) are modelled from the
spec and from the arithmetic relations the sources impose on them. -/

/-- Modelled from the spec: width of one coordinate of a curve point
(`utils/ecc::POINT_COORDINATE_WIDTH`, sextic extension of the base field);
the sources relate it to the affine width by `AFFINE_POINT_WIDTH = 2 * POINT_COORDINATE_WIDTH`. -/
def POINT_COORDINATE_WIDTH : ℕ := 6

/-- Modelled from the spec: width of an affine point (x and y coordinate),
`utils/ecc::AFFINE_POINT_WIDTH`. -/
def AFFINE_POINT_WIDTH : ℕ := 2 * POINT_COORDINATE_WIDTH

/-- Modelled from the spec: width of a projective point (x, y and z coordinate),
`utils/ecc::PROJECTIVE_POINT_WIDTH`. -/
def PROJECTIVE_POINT_WIDTH : ℕ := 3 * POINT_COORDINATE_WIDTH

/-- Modelled from the spec: sponge rate of the Rescue permutation
(`utils/rescue::RATE_WIDTH`); the sources use it as the digest chunk size
(`rescue::Hash::new` takes 7 elements). -/
def HASH_RATE_WIDTH : ℕ := 7

/-- Modelled from the spec: full Rescue state width (`utils/rescue::STATE_WIDTH`),
twice the rate. -/
def HASH_STATE_WIDTH : ℕ := 14

/-- Modelled from the spec: number of field elements of a Rescue digest
(`utils/rescue::DIGEST_SIZE`), equal to the rate. -/
def DIGEST_SIZE : ℕ := 7

/-- Modelled from the spec: rows of one hash cycle (`utils/rescue::HASH_CYCLE_LENGTH`). -/
def HASH_CYCLE_LENGTH : ℕ := 8

/-- Modelled from the spec: number of Rescue rounds per permutation
(`utils/rescue::NUM_HASH_ROUNDS`), one less than the hash cycle length. -/
def NUM_HASH_ROUNDS : ℕ := 7

/-- `merkle/constants.rs`: depth of the eligibility Merkle tree. -/
def TREE_DEPTH : ℕ := 14

/-- `merkle/constants.rs`: `MERKLE_CYCLE_LENGTH = (TREE_DEPTH + 2) * HASH_CYCLE_LENGTH`. -/
def MERKLE_CYCLE_LENGTH : ℕ := (TREE_DEPTH + 2) * HASH_CYCLE_LENGTH

/-- `merkle/constants.rs`: trace width of the Merkle AIR, `HASH_STATE_WIDTH + 1`. -/
def MERKLE_TRACE_WIDTH : ℕ := HASH_STATE_WIDTH + 1

/-- `cds/constants.rs`: number of hash iterations for the challenge transcript. -/
def NUM_HASH_ITER : ℕ := 12

/-- `cds/constants.rs`: number of steps of one in-trace scalar multiplication. -/
def SCALAR_MUL_LENGTH : ℕ := 510

/-- `cds/constants.rs`: rows of one CDS cycle (one voter). -/
def CDS_CYCLE_LENGTH : ℕ := 1024

/-- `cds/constants.rs`: rows of one CDS phase, half a cycle. -/
def NROWS_PER_PHASE : ℕ := CDS_CYCLE_LENGTH / 2

/-- `cds/constants.rs`: number of curve points in a CDS proof (a1, b1, a2, b2). -/
def PROOF_NUM_POINTS : ℕ := 4

/-- `cds/constants.rs`: number of scalars in a CDS proof (d1, d2, r1, r2). -/
def PROOF_NUM_SCALARS : ℕ := 4

/-- `cds/constants.rs`: `HASH_MSG_LENGTH = NUM_HASH_ITER * RATE_WIDTH`. -/
def HASH_MSG_LENGTH : ℕ := NUM_HASH_ITER * HASH_RATE_WIDTH

/-- `tally/constants.rs`: trace width of the Tally AIR, one projective point. -/
def TALLY_TRACE_WIDTH : ℕ := PROJECTIVE_POINT_WIDTH

/-- Modelled from the spec: `schnorr/constants.rs` is not among the sources;
the Schnorr AIR uses a fixed per-signature cycle length, a power of two
(the spec requires trace length = per-item-cycle-length × item-count to be a
power of two). -/
def SIG_CYCLE_LENGTH : ℕ := 1024

/-- Modelled from the spec: `schnorr/constants.rs::MSG_LENGTH`; the in-source
`prepare_message`/`hash_message` fill a voting key (12 elements) plus 4
address words and hash 4 rate-sized chunks, so the message is 28 elements. -/
def MSG_LENGTH : ℕ := 28

/-- Modelled from the spec: modulus of the 63-bit base field `f63`
(external winterfell fork). Only its size bounds matter here:
it is larger than 2^62 and smaller than 2^64. -/
def f63Modulus : ℕ := 4719772409484279809

/-- The base field, `winterfell::math::fields::f63::BaseElement`, modelled as
the integers modulo `f63Modulus`. -/
abbrev F : Type := ZMod f63Modulus

instance : NeZero f63Modulus := ⟨by decide⟩

/-! ## Winterfell boundary assertions

`winterfell::Assertion` values are created by the sources only through the
three constructors `Assertion::single`, `Assertion::periodic` and
`Assertion::sequence`; we model the type by exactly these. -/

/-- A boundary assertion of the external winterfell AIR interface:
`single register step value` pins one register at one step,
`periodic register firstStep stride value` pins a register to one value at
every step congruent to `firstStep` modulo `stride`, and
`sequence register firstStep stride values` pins a register to successive
`values` at the steps `firstStep, firstStep + stride, ...`. -/
inductive Assertion (α : Type) where
  | single (register step : ℕ) (value : α)
  | periodic (register firstStep stride : ℕ) (value : α)
  | sequence (register firstStep stride : ℕ) (values : List α)
  deriving DecidableEq, Repr

/-! ## Merkle membership AIR: boundary assertions (`merkle/air.rs`)

`MerkleAir::get_assertions` translated push-by-push.  A voting key is a
fixed-size array of `AFFINE_POINT_WIDTH` base-field elements, modelled as an
index function `ℕ → F`; the tree root is a `DIGEST_SIZE` array. -/

/-- Assertions contributed by one voting key (loop body of the
`START OF TRACE` loop in `MerkleAir::get_assertions`). -/
def merkleKeyAssertions (keyIndex : ℕ) (votingKey : ℕ → F) : List (Assertion F) :=
  ((List.range POINT_COORDINATE_WIDTH).flatMap (fun i =>
    [Assertion.single (i + 1) (keyIndex * MERKLE_CYCLE_LENGTH) (votingKey i),
     Assertion.single (i + HASH_RATE_WIDTH + 1)
       (keyIndex * MERKLE_CYCLE_LENGTH + HASH_CYCLE_LENGTH)
       (votingKey (i + POINT_COORDINATE_WIDTH))]))
  ++ ((List.range' (POINT_COORDINATE_WIDTH + 1)
        (HASH_STATE_WIDTH + 1 - (POINT_COORDINATE_WIDTH + 1))).map (fun i =>
    Assertion.single i (keyIndex * MERKLE_CYCLE_LENGTH) (0 : F)))
  ++ [Assertion.single 0 (keyIndex * MERKLE_CYCLE_LENGTH + HASH_CYCLE_LENGTH) (0 : F)]

/-- `MerkleAir::get_assertions` (`merkle/air.rs`): per-key start-of-trace
assertions followed by the periodic tree-root assertions at the last row of
every cycle. -/
def merkleGetAssertions (treeRoot : ℕ → F) (votingKeys : List (ℕ → F)) :
    List (Assertion F) :=
  (votingKeys.enum.flatMap (fun kv => merkleKeyAssertions kv.1 kv.2))
  ++ ((List.range HASH_RATE_WIDTH).map (fun i =>
    Assertion.periodic (i + 1) (MERKLE_CYCLE_LENGTH - 1) MERKLE_CYCLE_LENGTH (treeRoot i)))

/-- The values pinned by plain `single` assertions at a given trace row, in
registers of the hash state (register ≥ 1), in the order the assertion list
produces them. -/
def singleValuesAt (as : List (Assertion F)) (row : ℕ) : List F :=
  as.filterMap (fun a =>
    match a with
    | .single r s v => if s = row ∧ 1 ≤ r then some v else none
    | _ => none)

/-- The claim of C4, literally: the boundary assertions pin, for each item
`k`, the key's coordinates (all of them) at the start of cycle `k`, the
hashed-key output of the first hash phase — a value determined by the first
phase's input, i.e. by the x-part of the key — at row
`k·MERKLE_CYCLE_LENGTH + HASH_CYCLE_LENGTH`, and the tree root periodically
at the last row of every cycle. -/
def claimC4Statement : Prop :=
  ∃ h : List F → List F,
    ∀ (treeRoot : ℕ → F) (votingKeys : List (ℕ → F)) (k : ℕ), k < votingKeys.length →
      (∀ i < AFFINE_POINT_WIDTH,
        (votingKeys.getD k (fun _ => 0)) i ∈
          singleValuesAt (merkleGetAssertions treeRoot votingKeys)
            (k * MERKLE_CYCLE_LENGTH)) ∧
      singleValuesAt (merkleGetAssertions treeRoot votingKeys)
          (k * MERKLE_CYCLE_LENGTH + HASH_CYCLE_LENGTH) =
        h ((List.range POINT_COORDINATE_WIDTH).map (votingKeys.getD k (fun _ => 0))) ∧
      (∀ i < HASH_RATE_WIDTH,
        Assertion.periodic (i + 1) (MERKLE_CYCLE_LENGTH - 1) MERKLE_CYCLE_LENGTH
            (treeRoot i) ∈ merkleGetAssertions treeRoot votingKeys)

lemma singleValuesAt_append (a b : List (Assertion F)) (row : ℕ) :
    singleValuesAt (a ++ b) row = singleValuesAt a row ++ singleValuesAt b row :=
  List.filterMap_append ..

/-- Within one item's assertions, the row `k·MERKLE_CYCLE_LENGTH +
HASH_CYCLE_LENGTH` carries exactly the second half (the y-coordinates) of
that item's voting key. -/
lemma singleValuesAt_merkleKeyAssertions_self (k : ℕ) (key : ℕ → F) :
    singleValuesAt (merkleKeyAssertions k key)
        (k * MERKLE_CYCLE_LENGTH + HASH_CYCLE_LENGTH) =
      (List.range POINT_COORDINATE_WIDTH).map
        (fun i => key (i + POINT_COORDINATE_WIDTH)) := by
  have h8 : ¬ (k * MERKLE_CYCLE_LENGTH = k * MERKLE_CYCLE_LENGTH + HASH_CYCLE_LENGTH) := by
    simp [HASH_CYCLE_LENGTH]
  simp only [merkleKeyAssertions, singleValuesAt, List.filterMap_append,
    List.filterMap_map, POINT_COORDINATE_WIDTH, HASH_STATE_WIDTH]
  norm_num [List.range_succ, List.range'] at *
  simp [h8]

/-- Items with a different index contribute nothing at that row. -/
lemma singleValuesAt_merkleKeyAssertions_other (j k : ℕ) (hjk : j ≠ k) (key : ℕ → F) :
    singleValuesAt (merkleKeyAssertions j key)
        (k * MERKLE_CYCLE_LENGTH + HASH_CYCLE_LENGTH) = [] := by
  have h1 : ¬ (j * MERKLE_CYCLE_LENGTH = k * MERKLE_CYCLE_LENGTH + HASH_CYCLE_LENGTH) := by
    simp only [MERKLE_CYCLE_LENGTH, HASH_CYCLE_LENGTH, TREE_DEPTH]
    norm_num
    omega
  have h2 : ¬ (j * MERKLE_CYCLE_LENGTH + HASH_CYCLE_LENGTH =
      k * MERKLE_CYCLE_LENGTH + HASH_CYCLE_LENGTH) := by
    simp only [MERKLE_CYCLE_LENGTH, HASH_CYCLE_LENGTH, TREE_DEPTH]
    norm_num
    omega
  simp only [merkleKeyAssertions, singleValuesAt, List.filterMap_append,
    List.filterMap_map, POINT_COORDINATE_WIDTH, HASH_STATE_WIDTH]
  norm_num [List.range_succ, List.range'] at *
  simp [h1, h2]

lemma singleValuesAt_enumFrom_lt (rest : List (ℕ → F)) (m j : ℕ) (hj : j < m) :
    singleValuesAt ((rest.enumFrom m).flatMap
        (fun kv => merkleKeyAssertions kv.1 kv.2))
      (j * MERKLE_CYCLE_LENGTH + HASH_CYCLE_LENGTH) = [] := by
  induction rest generalizing m with
  | nil => simp [singleValuesAt]
  | cons a rest ih =>
      simp only [List.enumFrom_cons, List.flatMap_cons, singleValuesAt_append]
      rw [singleValuesAt_merkleKeyAssertions_other m j (by omega),
        ih (m + 1) (by omega)]
      simp

lemma singleValuesAt_enumFrom (keys : List (ℕ → F)) (n k : ℕ) (key : ℕ → F)
    (hk : keys[k]? = some key) :
    singleValuesAt ((keys.enumFrom n).flatMap
        (fun kv => merkleKeyAssertions kv.1 kv.2))
      ((n + k) * MERKLE_CYCLE_LENGTH + HASH_CYCLE_LENGTH) =
      (List.range POINT_COORDINATE_WIDTH).map
        (fun i => key (i + POINT_COORDINATE_WIDTH)) := by
  induction keys generalizing n k with
  | nil => simp at hk
  | cons a rest ih =>
      simp only [List.enumFrom_cons, List.flatMap_cons, singleValuesAt_append]
      cases k with
      | zero =>
          simp only [List.getElem?_cons_zero, Option.some.injEq] at hk
          subst hk
          simp only [Nat.add_zero]
          rw [singleValuesAt_merkleKeyAssertions_self,
            singleValuesAt_enumFrom_lt rest (n + 1) n (by omega)]
          simp
      | succ k =>
          simp only [List.getElem?_cons_succ] at hk
          rw [singleValuesAt_merkleKeyAssertions_other n (n + (k + 1)) (by omega)]
          have := ih (n + 1) k hk
          rw [show n + 1 + k = n + (k + 1) by omega] at this
          rw [this]
          simp

/-- The root assertions are periodic ones and pin no single value. -/
lemma singleValuesAt_rootAssertions (treeRoot : ℕ → F) (row : ℕ) :
    singleValuesAt ((List.range HASH_RATE_WIDTH).map (fun i =>
      Assertion.periodic (i + 1) (MERKLE_CYCLE_LENGTH - 1) MERKLE_CYCLE_LENGTH
        (treeRoot i))) row = [] := by
  simp [singleValuesAt, List.filterMap_map]

/-- In the full Merkle assertion list, the single values pinned at row
`k·MERKLE_CYCLE_LENGTH + HASH_CYCLE_LENGTH` are exactly the y-coordinates of
the k-th voting key. -/
lemma singleValuesAt_merkleGetAssertions (treeRoot : ℕ → F)
    (votingKeys : List (ℕ → F)) (k : ℕ) (key : ℕ → F)
    (hk : votingKeys[k]? = some key) :
    singleValuesAt (merkleGetAssertions treeRoot votingKeys)
        (k * MERKLE_CYCLE_LENGTH + HASH_CYCLE_LENGTH) =
      (List.range POINT_COORDINATE_WIDTH).map
        (fun i => key (i + POINT_COORDINATE_WIDTH)) := by
  have h := singleValuesAt_enumFrom votingKeys 0 k key hk
  rw [Nat.zero_add] at h
  rw [merkleGetAssertions, singleValuesAt_append, List.enum, h,
    singleValuesAt_rootAssertions]
  simp

/-- C4 counterexample: the Merkle boundary assertions do not pin all of a
key's coordinates at the start of its cycle, nor any hash-of-the-x-part at
row `k·MERKLE_CYCLE_LENGTH + HASH_CYCLE_LENGTH`: taking the single key with
coordinates (1, 2, ..., 12), its seventh coordinate is pinned nowhere at the
cycle start, refuting the claim for every candidate hash function. -/
theorem merkle_boundary_claim_counterexample : ¬ claimC4Statement := by
  rintro ⟨h, H⟩
  have H1 := (H (fun _ => 0) [fun i => ((i : F) + 1)] 0 (by simp)).1 6 (by decide)
  exact absurd H1 (by decide)

/-- C4, amended: the boundary assertions pin, for each item `k`, the key's
x-coordinates in the rate registers at the start of cycle `k`, the key's
y-coordinates in the capacity registers (together with a zero position bit)
at row `k·MERKLE_CYCLE_LENGTH + HASH_CYCLE_LENGTH`, zeros in the remaining
state registers at the cycle start, and the public tree root in the rate
registers at the last row of every cycle; the values pinned in state
registers at row `k·MERKLE_CYCLE_LENGTH + HASH_CYCLE_LENGTH` are exactly the
key's y-coordinates. -/
theorem merkle_boundary_assertions_amended (treeRoot : ℕ → F)
    (votingKeys : List (ℕ → F)) (k : ℕ) (key : ℕ → F)
    (hk : votingKeys[k]? = some key) :
    (∀ i < POINT_COORDINATE_WIDTH,
      Assertion.single (i + 1) (k * MERKLE_CYCLE_LENGTH) (key i) ∈
        merkleGetAssertions treeRoot votingKeys) ∧
    (∀ i < POINT_COORDINATE_WIDTH,
      Assertion.single (i + HASH_RATE_WIDTH + 1)
          (k * MERKLE_CYCLE_LENGTH + HASH_CYCLE_LENGTH)
          (key (i + POINT_COORDINATE_WIDTH)) ∈
        merkleGetAssertions treeRoot votingKeys) ∧
    (Assertion.single 0 (k * MERKLE_CYCLE_LENGTH + HASH_CYCLE_LENGTH) (0 : F) ∈
      merkleGetAssertions treeRoot votingKeys) ∧
    (∀ i, POINT_COORDINATE_WIDTH + 1 ≤ i → i < HASH_STATE_WIDTH + 1 →
      Assertion.single i (k * MERKLE_CYCLE_LENGTH) (0 : F) ∈
        merkleGetAssertions treeRoot votingKeys) ∧
    (∀ i < HASH_RATE_WIDTH,
      Assertion.periodic (i + 1) (MERKLE_CYCLE_LENGTH - 1) MERKLE_CYCLE_LENGTH
          (treeRoot i) ∈ merkleGetAssertions treeRoot votingKeys) ∧
    singleValuesAt (merkleGetAssertions treeRoot votingKeys)
        (k * MERKLE_CYCLE_LENGTH + HASH_CYCLE_LENGTH) =
      (List.range POINT_COORDINATE_WIDTH).map
        (fun i => key (i + POINT_COORDINATE_WIDTH)) := by
  have hmem : (k, key) ∈ votingKeys.enum := by
    rw [List.mk_mem_enum_iff_getElem?]
    exact hk
  have hsub : ∀ a ∈ merkleKeyAssertions k key,
      a ∈ merkleGetAssertions treeRoot votingKeys := by
    intro a ha
    rw [merkleGetAssertions]
    refine List.mem_append_left _ ?_
    exact List.mem_flatMap.2 ⟨(k, key), hmem, ha⟩
  refine ⟨?_, ?_, ?_, ?_, ?_, singleValuesAt_merkleGetAssertions _ _ _ _ hk⟩
  · intro i hi
    refine hsub _ ?_
    rw [merkleKeyAssertions]
    refine List.mem_append_left _ (List.mem_append_left _ ?_)
    exact List.mem_flatMap.2 ⟨i, List.mem_range.2 hi, by simp⟩
  · intro i hi
    refine hsub _ ?_
    rw [merkleKeyAssertions]
    refine List.mem_append_left _ (List.mem_append_left _ ?_)
    exact List.mem_flatMap.2 ⟨i, List.mem_range.2 hi, by simp⟩
  · refine hsub _ ?_
    rw [merkleKeyAssertions]
    exact List.mem_append_right _ (List.mem_singleton.2 rfl)
  · intro i h1 h2
    refine hsub _ ?_
    rw [merkleKeyAssertions]
    refine List.mem_append_left _ (List.mem_append_right _ ?_)
    refine List.mem_map.2 ⟨i, ?_, rfl⟩
    rw [List.mem_range']
    exact ⟨i - (POINT_COORDINATE_WIDTH + 1), by omega⟩
  · intro i hi
    rw [merkleGetAssertions]
    refine List.mem_append_right _ ?_
    exact List.mem_map.2 ⟨i, List.mem_range.2 hi, rfl⟩

/-- Witness for the amended C4 theorem at a concrete key list. -/
theorem merkle_boundary_assertions_amended_witness :
    ([fun i : ℕ => ((i : F) + 1)] : List (ℕ → F))[0]? =
      some (fun i : ℕ => ((i : F) + 1)) ∧
    singleValuesAt
        (merkleGetAssertions (fun _ => 0) [fun i : ℕ => ((i : F) + 1)])
        (0 * MERKLE_CYCLE_LENGTH + HASH_CYCLE_LENGTH) =
      (List.range POINT_COORDINATE_WIDTH).map
        (fun i : ℕ => ((i : F) + POINT_COORDINATE_WIDTH + 1)) :=
  ⟨rfl, by
    have h := (merkle_boundary_assertions_amended (fun _ => 0)
      [fun i : ℕ => ((i : F) + 1)] 0 (fun i : ℕ => ((i : F) + 1)) rfl).2.2.2.2.2
    rw [h]
    decide⟩

/-! ## Byte-level serialization (`merkle/air.rs` PublicInputs, winterfell wire format)

Bytes are modelled as natural numbers below 256.  A base-field element is
serialized as its canonical value in 8 little-endian bytes; deserialization
rejects non-canonical values (modelled from the spec: the winterfell
`Serializable`/`Deserializable` machinery is external to the sources, which
prescribe fixed-width little-endian words per element). -/

/-- The error type of the external deserialization interface, modelled by its
two behaviours the sources rely on: truncated input and invalid values. -/
inductive DeserializationError where
  | unexpectedEOF
  | invalidValue
  deriving DecidableEq, Repr

/-- Little-endian byte encoding, `k` bytes. -/
def leBytes (k n : ℕ) : List ℕ :=
  (List.range k).map (fun i => n / 256 ^ i % 256)

/-- Value of a little-endian byte list. -/
def leVal (bs : List ℕ) : ℕ :=
  bs.foldr (fun b acc => b + 256 * acc) 0

/-- `ByteWriter::write_u32`. -/
def u32LEBytes (n : ℕ) : List ℕ := leBytes 4 n

/-- `ByteWriter::write_u64`. -/
def u64LEBytes (n : ℕ) : List ℕ := leBytes 8 n

/-- Serialization of one base-field element: 8 little-endian bytes of its
canonical value. -/
def elementBytes (e : F) : List ℕ := u64LEBytes e.val

/-- `Serializable::write_batch_into` for a slice of base-field elements. -/
def writeBatch (es : List F) : List ℕ := es.flatMap elementBytes

/-- `ByteReader`: take `k` bytes off the source or fail with EOF. -/
def readBytes (k : ℕ) (s : List ℕ) :
    Except DeserializationError (List ℕ × List ℕ) :=
  if k ≤ s.length then .ok (s.take k, s.drop k) else .error .unexpectedEOF

/-- `ByteReader::read_u32`. -/
def readU32 (s : List ℕ) : Except DeserializationError (ℕ × List ℕ) := do
  let (bs, r) ← readBytes 4 s
  return (leVal bs, r)

/-- `ByteReader::read_u64`. -/
def readU64 (s : List ℕ) : Except DeserializationError (ℕ × List ℕ) := do
  let (bs, r) ← readBytes 8 s
  return (leVal bs, r)

/-- Deserialization of one base-field element: read 8 bytes and reject
non-canonical values. -/
def readElement (s : List ℕ) : Except DeserializationError (F × List ℕ) := do
  let (bs, r) ← readBytes 8 s
  if leVal bs < f63Modulus then return (((leVal bs : ℕ) : F), r)
  else throw .invalidValue

/-- `BaseElement::read_batch_from`. -/
def readBatch : ℕ → List ℕ → Except DeserializationError (List F × List ℕ)
  | 0, s => .ok ([], s)
  | n + 1, s => do
    let (e, r) ← readElement s
    let (es, r') ← readBatch n r
    return (e :: es, r')

/-- `merkle/air.rs`: the public inputs of the Merkle membership AIR. -/
structure MerklePublicInputs where
  tree_root : List F
  voting_keys : List (List F)
  deriving DecidableEq, Repr

/-- `PublicInputs::write_into` (`merkle/air.rs`): tree root, then the key
count as a `u32`, then each voting key. -/
def merklePublicInputsToBytes (p : MerklePublicInputs) : List ℕ :=
  writeBatch p.tree_root
    ++ u32LEBytes (p.voting_keys.length % 2 ^ 32)
    ++ p.voting_keys.flatMap writeBatch

/-- The loop of `PublicInputs::read_from` reading `num_voters` voting keys of
`AFFINE_POINT_WIDTH` elements each. -/
def readVotingKeys :
    ℕ → List ℕ → Except DeserializationError (List (List F) × List ℕ)
  | 0, s => .ok ([], s)
  | n + 1, s => do
    let (key, r) ← readBatch AFFINE_POINT_WIDTH s
    let (keys, r') ← readVotingKeys n r
    return (key :: keys, r')

/-- `PublicInputs::read_from`/`PublicInputs::from_bytes` (`merkle/air.rs`). -/
def merklePublicInputsFromBytes (s : List ℕ) :
    Except DeserializationError MerklePublicInputs := do
  let (root, s) ← readBatch DIGEST_SIZE s
  let (numVoters, s) ← readU32 s
  let (keys, _) ← readVotingKeys numVoters s
  return ⟨root, keys⟩

lemma leBytes_length (k n : ℕ) : (leBytes k n).length = k := by
  simp [leBytes]

lemma leBytes_succ (k n : ℕ) :
    leBytes (k + 1) n = n % 256 :: leBytes k (n / 256) := by
  simp only [leBytes, List.range_succ_eq_map, List.map_cons, List.map_map]
  congr 1
  · simp
  refine List.map_congr_left ?_
  intro i _
  simp only [Function.comp_apply]
  rw [pow_succ']
  rw [Nat.div_div_eq_div_mul]

lemma leVal_leBytes (k n : ℕ) (h : n < 256 ^ k) : leVal (leBytes k n) = n := by
  induction k generalizing n with
  | zero => simp [leBytes, leVal] at h ⊢; omega
  | succ k ih =>
      rw [leBytes_succ]
      simp only [leVal, List.foldr_cons]
      have : n / 256 < 256 ^ k := by
        rw [Nat.div_lt_iff_lt_mul (by norm_num)]
        calc n < 256 ^ (k + 1) := h
        _ = 256 ^ k * 256 := by ring
      have hrec := ih (n / 256) this
      simp only [leVal] at hrec
      rw [hrec]
      omega

lemma readBytes_append (xs rest : List ℕ) :
    readBytes xs.length (xs ++ rest) = .ok (xs, rest) := by
  simp [readBytes, List.take_left, List.drop_left]

lemma readElement_append (e : F) (rest : List ℕ) :
    readElement (elementBytes e ++ rest) = .ok (e, rest) := by
  have hlen : (elementBytes e).length = 8 := leBytes_length ..
  have hval : leVal (elementBytes e) = e.val := by
    refine leVal_leBytes 8 e.val ?_
    have := ZMod.val_lt e
    calc e.val < f63Modulus := this
    _ < 256 ^ 8 := by norm_num [f63Modulus]
  rw [readElement, show (8 : ℕ) = (elementBytes e).length from hlen.symm,
    readBytes_append]
  simp only [bind, Except.bind, hval]
  rw [if_pos (ZMod.val_lt e)]
  simp [pure, Except.pure, ZMod.natCast_rightInverse e]

lemma readBatch_append (es : List F) (rest : List ℕ) :
    readBatch es.length (es.flatMap elementBytes ++ rest) = .ok (es, rest) := by
  induction es with
  | nil => simp [readBatch]
  | cons e es ih =>
      simp only [List.flatMap_cons, List.length_cons, List.append_assoc, readBatch]
      rw [readElement_append]
      simp only [bind, Except.bind]
      rw [ih]
      rfl

lemma readU32_append (m : ℕ) (hm : m < 2 ^ 32) (rest : List ℕ) :
    readU32 (u32LEBytes m ++ rest) = .ok (m, rest) := by
  have hlen : (u32LEBytes m).length = 4 := leBytes_length ..
  rw [readU32, show (4 : ℕ) = (u32LEBytes m).length from hlen.symm,
    readBytes_append]
  simp only [bind, Except.bind, u32LEBytes]
  rw [leVal_leBytes 4 m (by calc m < 2 ^ 32 := hm
    _ = 256 ^ 4 := by norm_num)]
  rfl

lemma readVotingKeys_append (keys : List (List F)) (rest : List ℕ)
    (h : ∀ k ∈ keys, k.length = AFFINE_POINT_WIDTH) :
    readVotingKeys keys.length (keys.flatMap writeBatch ++ rest) =
      .ok (keys, rest) := by
  induction keys with
  | nil => simp [readVotingKeys]
  | cons key keys ih =>
      simp only [List.flatMap_cons, List.length_cons, List.append_assoc,
        readVotingKeys, writeBatch]
      rw [show AFFINE_POINT_WIDTH = key.length from (h key (by simp)).symm,
        readBatch_append]
      simp only [bind, Except.bind]
      rw [ih (fun k hk => h k (by simp [hk]))]
      rfl

/-- C6 (confirmed): for every Merkle `PublicInputs` value whose root has
`DIGEST_SIZE` elements, whose keys each have `AFFINE_POINT_WIDTH` elements
and whose key count is below `2^32`, deserializing the serialized bytes
yields exactly the original value: `from_bytes (to_bytes p) = Ok p`. -/
theorem merkle_public_inputs_roundtrip (p : MerklePublicInputs)
    (hroot : p.tree_root.length = DIGEST_SIZE)
    (hkeys : ∀ k ∈ p.voting_keys, k.length = AFFINE_POINT_WIDTH)
    (hn : p.voting_keys.length < 2 ^ 32) :
    merklePublicInputsFromBytes (merklePublicInputsToBytes p) = .ok p := by
  rw [merklePublicInputsFromBytes, merklePublicInputsToBytes, writeBatch,
    List.append_assoc, ← hroot, readBatch_append]
  simp only [bind, Except.bind]
  rw [Nat.mod_eq_of_lt hn, readU32_append _ hn]
  simp only [bind, Except.bind]
  rw [← List.append_nil (p.voting_keys.flatMap writeBatch),
    readVotingKeys_append _ _ hkeys]
  rfl

/-- Witness for C6: a concrete `PublicInputs` with a zero root of 7 elements
and two voting keys round-trips. -/
theorem merkle_public_inputs_roundtrip_witness :
    (let p : MerklePublicInputs :=
      ⟨List.replicate 7 (0 : F),
       [List.replicate 12 (1 : F), List.replicate 12 (2 : F)]⟩
    (p.tree_root.length = DIGEST_SIZE ∧
      (∀ k ∈ p.voting_keys, k.length = AFFINE_POINT_WIDTH) ∧
      p.voting_keys.length < 2 ^ 32) ∧
    merklePublicInputsFromBytes (merklePublicInputsToBytes p) = .ok p) := by
  refine ⟨⟨by decide, by decide, by norm_num⟩, ?_⟩
  exact merkle_public_inputs_roundtrip _ (by decide) (by decide) (by norm_num)

/-! ## Cyclic-group model of the curve

The elliptic curve and its scalar field live in the external winterfell fork
(`winterfell::math::curves::curve_f63`), not in the sources.  Modelled from
the spec: the curve group used by the protocol is cyclic of prime order,
written additively, with a fixed generator `G`; we model it as `ZMod q` for a
parameter `q`, with `G = 1` and scalar multiplication given by multiplication
in `ZMod q`. -/

/-- Modelled from the spec: the fixed curve generator `G`, which generates
the cyclic group; in the `ZMod q` model it is `1`. -/
def cyclicGenerator (q : ℕ) : ZMod q := 1

/-! ## CDS reference verifier (`cds/mod.rs`)

`naive_verify_cds_proofs` and the blinding-key loop it starts with,
translated over the cyclic-group model.  A CDS proof per item is four
scalars `(d1, d2, r1, r2)` and four points `(a1, b1, a2, b2)`; the
Fiat–Shamir challenge derivation (`points_to_hash_message`,
`hash_message_bytes`, `Scalar::from_bits`, external Rescue hash) is modelled
as an unintepreted function `challenge` of the voter index, voting key,
encrypted vote and proof points. -/

/-- Loop body state of the blinding-key computation: pushes the running
blinding key for each of `fuel` remaining voters, updating it with
`voting_keys[i] + voting_keys[i+1]` while another voter follows. -/
def cdsBlindingKeysAux (q : ℕ) (votingKeys : List (ZMod q)) (n : ℕ) :
    ℕ → ℕ → ZMod q → List (ZMod q)
  | 0, _, _ => []
  | fuel + 1, i, bk =>
      bk :: (if i + 1 < n then
        cdsBlindingKeysAux q votingKeys n fuel (i + 1)
          (bk + votingKeys.getD i 0 + votingKeys.getD (i + 1) 0)
      else
        cdsBlindingKeysAux q votingKeys n fuel (i + 1) bk)

/-- The blinding-key computation shared by `naive_verify_cds_proofs` and
`CDSExample::new` (`cds/mod.rs`): starts from the negated sum of all keys
but the first, then slides a window over the key list. -/
def cdsBlindingKeys (q : ℕ) (votingKeys : List (ZMod q)) : List (ZMod q) :=
  cdsBlindingKeysAux q votingKeys votingKeys.length votingKeys.length 0
    (-(votingKeys.drop 1).sum)

/-- The closed form of the `i`-th blinding key: the sum of the keys before
`i` minus the sum of the keys after `i`. -/
def blindingKeyClosedForm (q : ℕ) (votingKeys : List (ZMod q)) (i : ℕ) : ZMod q :=
  (votingKeys.take i).sum - (votingKeys.drop (i + 1)).sum

lemma cdsBlindingKeysAux_spec (q : ℕ) (votingKeys : List (ZMod q))
    (fuel i : ℕ) (hfi : i + fuel = votingKeys.length) :
    cdsBlindingKeysAux q votingKeys votingKeys.length fuel i
        (blindingKeyClosedForm q votingKeys i) =
      (List.range' i fuel).map (blindingKeyClosedForm q votingKeys) := by
  induction fuel generalizing i with
  | zero => simp [cdsBlindingKeysAux]
  | succ fuel ih =>
      rw [cdsBlindingKeysAux, List.range']
      by_cases h : i + 1 < votingKeys.length
      · rw [if_pos h]
        have hstep : blindingKeyClosedForm q votingKeys i +
            votingKeys.getD i 0 + votingKeys.getD (i + 1) 0 =
            blindingKeyClosedForm q votingKeys (i + 1) := by
          have hi : i < votingKeys.length := by omega
          rw [blindingKeyClosedForm, blindingKeyClosedForm,
            List.getD_eq_getElem _ _ hi, List.getD_eq_getElem _ _ h,
            List.sum_take_succ _ _ hi,
            List.drop_eq_getElem_cons h]
          simp only [List.sum_cons]
          ring
        rw [hstep, ih (i + 1) (by omega)]
        simp
      · rw [if_neg h]
        have hfuel : fuel = 0 := by omega
        subst hfuel
        simp [cdsBlindingKeysAux]

/-- The blinding keys computed by the loop are exactly the closed forms. -/
lemma cdsBlindingKeys_eq (q : ℕ) (votingKeys : List (ZMod q)) :
    cdsBlindingKeys q votingKeys =
      (List.range votingKeys.length).map (blindingKeyClosedForm q votingKeys) := by
  have h0 : blindingKeyClosedForm q votingKeys 0 = -(votingKeys.drop 1).sum := by
    simp [blindingKeyClosedForm]
  rw [cdsBlindingKeys, ← h0,
    cdsBlindingKeysAux_spec q votingKeys votingKeys.length 0 (by omega),
    List.range_eq_range']

/-- The per-item check of `naive_verify_cds_proofs` (`cds/mod.rs`):
the Fiat–Shamir challenge splits as `c = d1 + d2` and the four proof points
satisfy the two Chaum–Pedersen branches. -/
def cdsItemCheck (q : ℕ) (g : ZMod q)
    (challenge : ℕ → ZMod q → ZMod q → ZMod q × ZMod q × ZMod q × ZMod q → ZMod q)
    (votingKeys encryptedVotes blindingKeys : List (ZMod q)) (i : ℕ)
    (scalars points : ZMod q × ZMod q × ZMod q × ZMod q) : Bool :=
  let d1 := scalars.1
  let d2 := scalars.2.1
  let r1 := scalars.2.2.1
  let r2 := scalars.2.2.2
  let a1 := points.1
  let b1 := points.2.1
  let a2 := points.2.2.1
  let b2 := points.2.2.2
  let vk := votingKeys.getD i 0
  let ev := encryptedVotes.getD i 0
  let bk := blindingKeys.getD i 0
  let c := challenge i vk ev points
  ¬(c ≠ d1 + d2 ∨ a1 ≠ r1 * g + d1 * vk ∨ b1 ≠ r1 * bk + d1 * (ev + g) ∨
    a2 ≠ r2 * g + d2 * vk ∨ b2 ≠ r2 * bk + d2 * (ev - g))

/-- `naive_verify_cds_proofs` (`cds/mod.rs`): computes the blinding keys,
then checks every indexed pair of proof scalars and proof points, returning
`false` at the first failure. -/
def naiveVerifyCdsProofs (q : ℕ) (g : ZMod q)
    (challenge : ℕ → ZMod q → ZMod q → ZMod q × ZMod q × ZMod q × ZMod q → ZMod q)
    (votingKeys encryptedVotes : List (ZMod q))
    (proofScalars proofPoints : List (ZMod q × ZMod q × ZMod q × ZMod q)) : Bool :=
  let blindingKeys := cdsBlindingKeys q votingKeys
  ((proofScalars.zip proofPoints).enum).all (fun ip =>
    cdsItemCheck q g challenge votingKeys encryptedVotes blindingKeys
      ip.1 ip.2.1 ip.2.2)

lemma all_enum_iff {α : Type} (l : List α) (p : ℕ × α → Bool) :
    (l.enum.all p = true) ↔ ∀ i (h : i < l.length), p (i, l[i]) := by
  rw [List.all_eq_true]
  constructor
  · intro H i h
    exact H (i, l[i])
      (List.mk_mem_enum_iff_getElem?.2 (List.getElem?_eq_getElem h))
  · rintro H ⟨i, a⟩ hx
    rw [List.mk_mem_enum_iff_getElem?] at hx
    obtain ⟨h, rfl⟩ := List.getElem?_eq_some_iff.1 hx
    exact H i h

/-- C2 (confirmed): the reference verifier returns `true` iff every item's
hash-derived challenge splits as `c = d1 + d2` and the four proof points
satisfy the two Chaum–Pedersen branch equations, with the `i`-th blinding
key equal to the sum of the earlier keys minus the sum of the later keys. -/
theorem naive_verify_cds_proofs_iff (q : ℕ) (g : ZMod q)
    (challenge : ℕ → ZMod q → ZMod q → ZMod q × ZMod q × ZMod q × ZMod q → ZMod q)
    (votingKeys encryptedVotes : List (ZMod q))
    (proofScalars proofPoints : List (ZMod q × ZMod q × ZMod q × ZMod q))
    (_hev : encryptedVotes.length = votingKeys.length)
    (hsc : proofScalars.length = votingKeys.length)
    (hpt : proofPoints.length = votingKeys.length) :
    naiveVerifyCdsProofs q g challenge votingKeys encryptedVotes
        proofScalars proofPoints = true ↔
      ∀ i, i < votingKeys.length →
        let d1 := (proofScalars.getD i 0).1
        let d2 := (proofScalars.getD i 0).2.1
        let r1 := (proofScalars.getD i 0).2.2.1
        let r2 := (proofScalars.getD i 0).2.2.2
        let a1 := (proofPoints.getD i 0).1
        let b1 := (proofPoints.getD i 0).2.1
        let a2 := (proofPoints.getD i 0).2.2.1
        let b2 := (proofPoints.getD i 0).2.2.2
        let vk := votingKeys.getD i 0
        let ev := encryptedVotes.getD i 0
        let bk := (votingKeys.take i).sum - (votingKeys.drop (i + 1)).sum
        let c := challenge i vk ev (proofPoints.getD i 0)
        c = d1 + d2 ∧ a1 = r1 * g + d1 * vk ∧ b1 = r1 * bk + d1 * (ev + g) ∧
          a2 = r2 * g + d2 * vk ∧ b2 = r2 * bk + d2 * (ev - g) := by
  rw [naiveVerifyCdsProofs, all_enum_iff]
  have hzip : (proofScalars.zip proofPoints).length = votingKeys.length := by
    rw [List.length_zip, hsc, hpt, Nat.min_self]
  have hbk : ∀ i, i < votingKeys.length →
      (cdsBlindingKeys q votingKeys).getD i 0 =
        (votingKeys.take i).sum - (votingKeys.drop (i + 1)).sum := by
    intro i hi
    rw [cdsBlindingKeys_eq, List.getD_eq_getElem _ _ (by simpa using hi),
      List.getElem_map, List.getElem_range]
    rfl
  constructor
  · intro H i hi
    have hiS : i < proofScalars.length := by omega
    have hiP : i < proofPoints.length := by omega
    have h := H i (by omega)
    rw [List.getElem_zip] at h
    rw [cdsItemCheck] at h
    simp only [decide_eq_true_eq, not_or, not_not, ne_eq] at h
    simp only [List.getD_eq_getElem proofScalars 0 hiS,
      List.getD_eq_getElem proofPoints 0 hiP]
    rw [← hbk i hi]
    exact h
  · intro H i hi
    rw [hzip] at hi
    have hiS : i < proofScalars.length := by omega
    have hiP : i < proofPoints.length := by omega
    rw [List.getElem_zip, cdsItemCheck]
    simp only [decide_eq_true_eq, not_or, not_not, ne_eq]
    have h := H i hi
    simp only [List.getD_eq_getElem proofScalars 0 hiS,
      List.getD_eq_getElem proofPoints 0 hiP] at h
    rw [← hbk i hi] at h
    exact h

/-- Witness for C2: at a concrete all-zero single-item instance the
equations hold, so the reference verifier accepts. -/
theorem naive_verify_cds_proofs_iff_witness :
    naiveVerifyCdsProofs 5 1 (fun _ _ _ _ => 0) [0] [0] [(0, 0, 0, 0)]
      [(0, 0, 0, 0)] = true :=
  (naive_verify_cds_proofs_iff 5 1 (fun _ _ _ _ => 0) [0] [0] [(0, 0, 0, 0)]
    [(0, 0, 0, 0)] rfl rfl rfl).2 (by
      intro i hi
      simp only [List.length_singleton] at hi
      have h0 : i = 0 := by omega
      subst h0
      decide)

/-! ## Tally AIR: boundary assertions (`tally/air.rs`)

`TallyAir::get_assertions` translated over the cyclic-group model of the
curve.  The reduction of a point to its `AFFINE_POINT_WIDTH` base-field
coordinates (`projective_to_elements`, which passes through the external
`AffinePoint` conversion) and the affine negation gadget
(`utils/ecc::compute_negation_affine`, not among the sources) are taken as
parameters `coordsOf` and `negAffine`. -/

/-- `TallyAir::get_assertions` (`tally/air.rs`): pins the projective
accumulator at row 0 to `(N − 2t)·G` (coordinates plus the not-at-infinity
flag, zeros elsewhere) and the affine registers at the last row to the
negation of the last encrypted vote. -/
def tallyGetAssertions (q : ℕ) (coordsOf : ZMod q → List F)
    (negAffine : List F → List F) (encryptedVotes : List (List F))
    (tallyResult : ℕ) : List (Assertion F) :=
  let numVotes := encryptedVotes.length
  let negD : ZMod q := (numVotes : ZMod q) - 2 * (tallyResult : ZMod q)
  let negDG : ZMod q := negD * cyclicGenerator q
  let negDGElements := coordsOf negDG
  let negLastVote := negAffine (encryptedVotes.getD (numVotes - 1) [])
  ((List.range AFFINE_POINT_WIDTH).map (fun i =>
    Assertion.single i 0 (negDGElements.getD i 0)))
  ++ [Assertion.single AFFINE_POINT_WIDTH 0
        (if negDG = 0 then (0 : F) else 1)]
  ++ ((List.range' (AFFINE_POINT_WIDTH + 1)
        (PROJECTIVE_POINT_WIDTH - (AFFINE_POINT_WIDTH + 1))).map (fun i =>
    Assertion.single i 0 (0 : F)))
  ++ ((List.range AFFINE_POINT_WIDTH).map (fun i =>
    Assertion.single i (numVotes - 1) (negLastVote.getD i 0)))

/-- C3 (confirmed): for a non-empty vote list of length `N < q` and a
claimed tally `t ≤ N`, the Tally boundary assertions pin the accumulator at
row 0 to the coordinates of `−d·G` with `d = 2t − N` (as an integer), set
the not-at-infinity flag to 1 exactly when `2t ≠ N`, zero the remaining
projective registers, and pin the affine registers at row `N − 1` to the
negation of the last encrypted vote. -/
theorem tally_boundary_assertions (q : ℕ) [NeZero q]
    (coordsOf : ZMod q → List F) (negAffine : List F → List F)
    (encryptedVotes : List (List F)) (t : ℕ)
    (hne : encryptedVotes ≠ [])
    (hNq : encryptedVotes.length < q) (htN : t ≤ encryptedVotes.length) :
    tallyGetAssertions q coordsOf negAffine encryptedVotes t =
      ((List.range AFFINE_POINT_WIDTH).map (fun i =>
        Assertion.single i 0
          ((coordsOf (((-(2 * (t : ℤ) - encryptedVotes.length) : ℤ) : ZMod q) *
            cyclicGenerator q)).getD i 0)))
      ++ [Assertion.single AFFINE_POINT_WIDTH 0
            (if 2 * t = encryptedVotes.length then (0 : F) else 1)]
      ++ ((List.range' (AFFINE_POINT_WIDTH + 1)
            (PROJECTIVE_POINT_WIDTH - (AFFINE_POINT_WIDTH + 1))).map (fun i =>
        Assertion.single i 0 (0 : F)))
      ++ ((List.range AFFINE_POINT_WIDTH).map (fun i =>
        Assertion.single i (encryptedVotes.length - 1)
          ((negAffine (encryptedVotes.getLast hne)).getD i 0))) := by
  have hcast : ((encryptedVotes.length : ZMod q) - 2 * (t : ZMod q)) =
      ((-(2 * (t : ℤ) - encryptedVotes.length) : ℤ) : ZMod q) := by
    push_cast
    ring
  have hflag : (((encryptedVotes.length : ZMod q) - 2 * (t : ZMod q)) *
        cyclicGenerator q = 0) ↔ 2 * t = encryptedVotes.length := by
    rw [cyclicGenerator, mul_one]
    constructor
    · intro h
      have hz : (((encryptedVotes.length : ℤ) - 2 * t : ℤ) : ZMod q) = 0 := by
        push_cast
        push_cast at h
        linear_combination h
      rw [ZMod.intCast_zmod_eq_zero_iff_dvd] at hz
      have habs : |(encryptedVotes.length : ℤ) - 2 * t| < (q : ℤ) := by
        rw [abs_lt]
        constructor <;> [skip; skip] <;> omega
      have := Int.eq_zero_of_abs_lt_dvd hz habs
      omega
    · intro h
      have : (encryptedVotes.length : ZMod q) = ((2 * t : ℕ) : ZMod q) := by
        rw [h]
      rw [this]
      push_cast
      ring
  have hlast : encryptedVotes.getD (encryptedVotes.length - 1) [] =
      encryptedVotes.getLast hne := by
    rw [List.getLast_eq_getElem,
      List.getD_eq_getElem _ _ (by
        have := List.length_pos.2 hne
        omega)]
  rw [tallyGetAssertions]
  simp only [hcast, hlast]
  have hflag2 : ((((-(2 * (t : ℤ) - encryptedVotes.length) : ℤ) : ZMod q)) *
      cyclicGenerator q = 0) ↔ 2 * t = encryptedVotes.length := by
    rw [← hcast]
    exact hflag
  rw [if_congr hflag2 rfl rfl]

/-- Witness for C3: one vote `[1]`, claimed tally 1, trivial coordinate
maps; since `2·1 ≠ 1` the flag register is pinned to 1, and row 0 = row N−1
carries both the accumulator zeros and the negated last vote. -/
theorem tally_boundary_assertions_witness :
    (([[(1 : F)]] : List (List F)) ≠ [] ∧ ([[(1 : F)]] : List (List F)).length < 5 ∧
      1 ≤ ([[(1 : F)]] : List (List F)).length) ∧
    tallyGetAssertions 5 (fun _ => []) id [[(1 : F)]] 1 =
      ((List.range 12).map (fun i => Assertion.single i 0 (0 : F)))
      ++ [Assertion.single 12 0 (1 : F)]
      ++ ((List.range' 13 5).map (fun i => Assertion.single i 0 (0 : F)))
      ++ (Assertion.single 0 0 (1 : F) ::
          (List.range' 1 11).map (fun i => Assertion.single i 0 (0 : F))) := by
  refine ⟨⟨by decide, by decide, by decide⟩, ?_⟩
  have h := tally_boundary_assertions 5 (fun _ => []) id [[(1 : F)]] 1
    (by decide) (by decide) (by decide)
  rw [h]
  decide

/-! ## Vote tallying aggregator (`aggregator/tally.rs`)

`VoteTallier::tally_votes` over the cyclic-group model: encrypted votes are
curve points (elements of `ZMod q`), the cached result an optional natural
number.  The `&mut self` update is made explicit by returning the new state
alongside the result. -/

/-- `TallierError` (`aggregator/tally.rs`). -/
inductive TallierError where
  | invalidTallyResult
  deriving DecidableEq, Repr

/-- `VoteTallier` (`aggregator/tally.rs`). -/
structure VoteTallier (q : ℕ) where
  encrypted_votes : List (ZMod q)
  tally_result : Option ℕ
  deriving DecidableEq

/-- The search loop of `tally_votes`: starting from the identity, add the
generator and count up while the accumulated point differs from `yesSum`
and the count has not passed `numVotes`.  The loop advances at most
`numVotes + 2` times, which the fuel makes explicit. -/
def tallyVotesLoop (q : ℕ) (yesSum : ZMod q) (numVotes : ℕ) :
    ℕ → ZMod q → ℕ → ℕ
  | 0, _, tally => tally
  | fuel + 1, tmp, tally =>
      if tmp ≠ yesSum ∧ tally ≤ numVotes then
        tallyVotesLoop q yesSum numVotes fuel (tmp + cyclicGenerator q) (tally + 1)
      else tally

/-- `VoteTallier::tally_votes` (`aggregator/tally.rs`): returns the cached
result if set; otherwise halves `N·G + Σ votes`, searches for the discrete
logarithm among `0..=N`, caches it on success, and returns
`InvalidTallyResult` otherwise. -/
def tallyVotes (q : ℕ) (t : VoteTallier q) :
    Except TallierError ℕ × VoteTallier q :=
  match t.tally_result with
  | some r => (.ok r, t)
  | none =>
      let numVotes := t.encrypted_votes.length
      let yesSum := (cyclicGenerator q * (numVotes : ZMod q) +
        t.encrypted_votes.sum) * (2 : ZMod q)⁻¹
      let tally := tallyVotesLoop q yesSum numVotes (numVotes + 2) 0 0
      if tally > numVotes then (.error .invalidTallyResult, t)
      else (.ok tally, { t with tally_result := some tally })

/-- If no count in `[j, N]` hits `yesSum`, the loop runs to `N + 1`. -/
lemma tallyVotesLoop_none (q : ℕ) (yesSum : ZMod q) (numVotes : ℕ)
    (fuel j : ℕ) (hj : j ≤ numVotes + 1) (hfuel : numVotes + 1 < j + fuel)
    (h : ∀ k, j ≤ k → k ≤ numVotes → (k : ZMod q) * cyclicGenerator q ≠ yesSum) :
    tallyVotesLoop q yesSum numVotes fuel
        ((j : ZMod q) * cyclicGenerator q) j = numVotes + 1 := by
  induction fuel generalizing j with
  | zero => omega
  | succ fuel ih =>
      rw [tallyVotesLoop]
      by_cases hjN : j ≤ numVotes
      · rw [if_pos ⟨h j le_rfl hjN, hjN⟩]
        have hstep : (j : ZMod q) * cyclicGenerator q + cyclicGenerator q =
            ((j + 1 : ℕ) : ZMod q) * cyclicGenerator q := by
          push_cast
          ring
        rw [hstep]
        exact ih (j + 1) (by omega) (by omega) (fun k hk1 hk2 => h k (by omega) hk2)
      · have hj1 : j = numVotes + 1 := by omega
        rw [if_neg (by rw [hj1]; simp)]
        exact hj1

/-- If `k` is the first count at or after `j` hitting `yesSum`, and it is
within bounds, the loop stops there and returns it. -/
lemma tallyVotesLoop_found (q : ℕ) (yesSum : ZMod q) (numVotes : ℕ)
    (fuel j k : ℕ) (hjk : j ≤ k) (hkN : k ≤ numVotes) (hfuel : k < j + fuel)
    (hk : (k : ZMod q) * cyclicGenerator q = yesSum)
    (hmin : ∀ m, j ≤ m → m < k → (m : ZMod q) * cyclicGenerator q ≠ yesSum) :
    tallyVotesLoop q yesSum numVotes fuel
        ((j : ZMod q) * cyclicGenerator q) j = k := by
  induction fuel generalizing j with
  | zero => omega
  | succ fuel ih =>
      rw [tallyVotesLoop]
      by_cases hjeq : j = k
      · subst hjeq
        rw [if_neg (by rw [hk]; simp)]
      · rw [if_pos ⟨hmin j le_rfl (by omega), by omega⟩]
        have hstep : (j : ZMod q) * cyclicGenerator q + cyclicGenerator q =
            ((j + 1 : ℕ) : ZMod q) * cyclicGenerator q := by
          push_cast
          ring
        rw [hstep]
        exact ih (j + 1) (by omega) (by omega)
          (fun m hm1 hm2 => hmin m (by omega) hm2)

/-- Hitting the halved sum is the same as the claim's equation
`S + N·G = 2k·G`, provided 2 is invertible. -/
lemma tallyVotes_hits_iff (q : ℕ) (h2 : IsUnit (2 : ZMod q)) (S : ZMod q)
    (N k : ℕ) :
    ((k : ZMod q) * cyclicGenerator q =
        (cyclicGenerator q * (N : ZMod q) + S) * (2 : ZMod q)⁻¹) ↔
      S + (N : ZMod q) * cyclicGenerator q =
        ((2 * k : ℕ) : ZMod q) * cyclicGenerator q := by
  have hinv : (2 : ZMod q) * (2 : ZMod q)⁻¹ = 1 := ZMod.mul_inv_of_unit _ h2
  simp only [cyclicGenerator, mul_one, one_mul, Nat.cast_mul, Nat.cast_ofNat]
  constructor
  · intro h
    have := congrArg (fun x => (2 : ZMod q) * x) h
    simp only at this
    rw [show (2 : ZMod q) * (((N : ZMod q) + S) * (2 : ZMod q)⁻¹) =
      ((N : ZMod q) + S) * ((2 : ZMod q) * (2 : ZMod q)⁻¹) by ring, hinv,
      mul_one] at this
    rw [this]
    ring
  · intro h
    have hk : (2 : ZMod q) * (k : ZMod q) = (N : ZMod q) + S := by
      rw [← h]
      ring
    calc (k : ZMod q) = (2 : ZMod q) * (k : ZMod q) * (2 : ZMod q)⁻¹ := by
          rw [mul_comm (2 : ZMod q) _, mul_assoc, hinv, mul_one]
    _ = ((N : ZMod q) + S) * (2 : ZMod q)⁻¹ := by rw [hk]

/-- C10 (confirmed): with an unset cache, `tally_votes` returns `Ok t` iff
some `t ≤ N` satisfies `Σ votes + N·G = 2t·G`; in that case the smallest
such `t` is returned and cached, and every later call returns it unchanged;
otherwise it returns `InvalidTallyResult` and leaves the state (hence the
unset cache) untouched. -/
theorem tally_votes_spec (q : ℕ) [NeZero q] (h2 : IsUnit (2 : ZMod q))
    (t : VoteTallier q) (hcache : t.tally_result = none) :
    ((∃ n, (tallyVotes q t).1 = .ok n) ↔
      ∃ k, k ≤ t.encrypted_votes.length ∧
        t.encrypted_votes.sum +
            (t.encrypted_votes.length : ZMod q) * cyclicGenerator q =
          ((2 * k : ℕ) : ZMod q) * cyclicGenerator q) ∧
    (∀ n, (tallyVotes q t).1 = .ok n →
      n ≤ t.encrypted_votes.length ∧
      t.encrypted_votes.sum +
          (t.encrypted_votes.length : ZMod q) * cyclicGenerator q =
        ((2 * n : ℕ) : ZMod q) * cyclicGenerator q ∧
      (∀ m, m < n →
        t.encrypted_votes.sum +
            (t.encrypted_votes.length : ZMod q) * cyclicGenerator q ≠
          ((2 * m : ℕ) : ZMod q) * cyclicGenerator q) ∧
      (tallyVotes q t).2.tally_result = some n ∧
      tallyVotes q (tallyVotes q t).2 = (.ok n, (tallyVotes q t).2)) ∧
    ((tallyVotes q t).1 = .error .invalidTallyResult ↔
      ∀ k, k ≤ t.encrypted_votes.length →
        t.encrypted_votes.sum +
            (t.encrypted_votes.length : ZMod q) * cyclicGenerator q ≠
          ((2 * k : ℕ) : ZMod q) * cyclicGenerator q) ∧
    ((tallyVotes q t).1 = .error .invalidTallyResult →
      (tallyVotes q t).2 = t) := by
  classical
  set N := t.encrypted_votes.length with hN
  set S := t.encrypted_votes.sum with hS
  set yesSum : ZMod q := (cyclicGenerator q * (N : ZMod q) + S) * (2 : ZMod q)⁻¹
    with hys
  have hiff : ∀ k : ℕ, ((k : ZMod q) * cyclicGenerator q = yesSum) ↔
      S + (N : ZMod q) * cyclicGenerator q =
        ((2 * k : ℕ) : ZMod q) * cyclicGenerator q := fun k =>
    tallyVotes_hits_iff q h2 S N k
  have hunfold : tallyVotes q t =
      (if N < tallyVotesLoop q yesSum N (N + 2) 0 0 then
        (.error .invalidTallyResult, t)
      else (.ok (tallyVotesLoop q yesSum N (N + 2) 0 0),
        { t with tally_result := some (tallyVotesLoop q yesSum N (N + 2) 0 0) })) := by
    rw [tallyVotes, hcache]
  by_cases hex : ∃ k, k ≤ N ∧ (k : ZMod q) * cyclicGenerator q = yesSum
  · have hexd : ∃ k, k ≤ N ∧ (k : ZMod q) * cyclicGenerator q = yesSum := hex
    set k0 := Nat.find hexd with hk0
    obtain ⟨hk0N, hk0hit⟩ := Nat.find_spec hexd
    have hmin : ∀ m, m < k0 → (m : ZMod q) * cyclicGenerator q ≠ yesSum := by
      intro m hm hmhit
      exact Nat.find_min hexd hm ⟨by omega, hmhit⟩
    have hloop : tallyVotesLoop q yesSum N (N + 2) 0 0 = k0 := by
      have h := tallyVotesLoop_found q yesSum N (N + 2) 0 k0 (Nat.zero_le _)
        hk0N (by omega) hk0hit (fun m _ hm => hmin m hm)
      simpa using h
    rw [hunfold, hloop, if_neg (by omega)]
    refine ⟨?_, ?_, ?_, ?_⟩
    · exact ⟨fun _ => ⟨k0, hk0N, (hiff k0).1 hk0hit⟩, fun _ => ⟨k0, rfl⟩⟩
    · rintro n hn
      obtain rfl : k0 = n := by simpa using hn
      refine ⟨hk0N, (hiff k0).1 hk0hit, ?_, rfl, rfl⟩
      intro m hm hmeq
      exact hmin m hm ((hiff m).2 hmeq)
    · constructor
      · intro h
        simp at h
      · intro h
        exact absurd ((hiff k0).1 hk0hit) (h k0 hk0N)
    · intro h
      simp at h
  · have hloop : tallyVotesLoop q yesSum N (N + 2) 0 0 = N + 1 := by
      have h := tallyVotesLoop_none q yesSum N (N + 2) 0 (by omega) (by omega)
        (fun k _ hk2 hk3 => hex ⟨k, hk2, hk3⟩)
      simpa using h
    rw [hunfold, hloop, if_pos (by omega)]
    refine ⟨?_, ?_, ?_, fun _ => rfl⟩
    · constructor
      · rintro ⟨n, hn⟩
        simp at hn
      · rintro ⟨k, hk1, hk2⟩
        exact absurd ⟨k, hk1, (hiff k).2 hk2⟩ hex
    · intro n hn
      simp at hn
    · exact ⟨fun _ k hk1 hk2 => hex ⟨k, hk1, (hiff k).2 hk2⟩, fun _ => rfl⟩

/-- Witness for C10: a single encrypted vote equal to `G` over `ZMod 5`;
`1 + 1·G = 2·1·G`, so some tally is returned. -/
theorem tally_votes_spec_witness :
    IsUnit (2 : ZMod 5) ∧
    ((⟨[(1 : ZMod 5)], none⟩ : VoteTallier 5).tally_result = none) ∧
    (∃ n, (tallyVotes 5 ⟨[(1 : ZMod 5)], none⟩).1 = .ok n) := by
  have h2 : IsUnit (2 : ZMod 5) := isUnit_of_mul_eq_one 2 3 (by decide)
  refine ⟨h2, rfl, ?_⟩
  have h := (tally_votes_spec 5 h2 ⟨[(1 : ZMod 5)], none⟩ rfl).1
  exact h.2 ⟨1, by decide, by decide⟩

/-! ## CDS AIR: boundary assertions (`cds/air.rs`)

`CDSAir::get_assertions` and `transpose_proof_points` translated
push-by-push.  A per-item proof is the 72-element array
`[vk, ev, a1, b1, a2, b2]` and a per-item output the 60-element array of
derived values, both modelled as index functions `ℕ → F`. -/

/-- First component of `transpose_proof_points` (`cds/air.rs`): per item the
offset proof points `a1`, `a2` plus the matching output entries, interleaved
two per item. -/
def transposeProofPoints1 (pairs : List ((ℕ → F) × (ℕ → F))) (i : ℕ) : List F :=
  pairs.flatMap (fun po =>
    [po.1 (2 * AFFINE_POINT_WIDTH + i) + po.2 i,
     po.1 (2 * AFFINE_POINT_WIDTH + i + 2 * AFFINE_POINT_WIDTH) +
       po.2 (i + 2 * AFFINE_POINT_WIDTH)])

/-- Second component of `transpose_proof_points`: `b1`, `b2` plus outputs. -/
def transposeProofPoints2 (pairs : List ((ℕ → F) × (ℕ → F))) (i : ℕ) : List F :=
  pairs.flatMap (fun po =>
    [po.1 (2 * AFFINE_POINT_WIDTH + i + AFFINE_POINT_WIDTH) +
       po.2 (i + AFFINE_POINT_WIDTH),
     po.1 (2 * AFFINE_POINT_WIDTH + i + 3 * AFFINE_POINT_WIDTH) +
       po.2 (i + 3 * AFFINE_POINT_WIDTH)])

/-- Third component of `transpose_proof_points`: the x and z coordinates of
`(c − d1 − d2)·vk`, read from the output section `outputs[4·APW ..]`. -/
def transposeProofPoints3 (pairs : List ((ℕ → F) × (ℕ → F))) (i : ℕ) : List F :=
  pairs.map (fun po => po.2 (i + 4 * AFFINE_POINT_WIDTH))

/-- `CDSAir::get_assertions` (`cds/air.rs`): start-of-cycle point
initializations, binary-decomposition zeros, reconstructed-challenge zeros,
Rescue-state initialization (the voter index and zeros), the end-of-phase
`a`/`b` proof-point sequences, and the end-of-cycle `(c − d1 − d2)·vk`
sequences. -/
def cdsGetAssertions (proofs outputs : List (ℕ → F)) : List (Assertion F) :=
  let pairs := proofs.zip outputs
  ((List.range PROJECTIVE_POINT_WIDTH).flatMap (fun i =>
    let value : F := if i = POINT_COORDINATE_WIDTH then 1 else 0
    [Assertion.periodic i 0 CDS_CYCLE_LENGTH value,
     Assertion.periodic (i + PROJECTIVE_POINT_WIDTH + 1) 0 NROWS_PER_PHASE value,
     Assertion.periodic (i + 2 * PROJECTIVE_POINT_WIDTH + 1) 0 NROWS_PER_PHASE value,
     Assertion.periodic (i + 3 * PROJECTIVE_POINT_WIDTH + 2) 0 NROWS_PER_PHASE value,
     Assertion.periodic (i + 4 * PROJECTIVE_POINT_WIDTH + 2) 0 NROWS_PER_PHASE value]))
  ++ [Assertion.periodic PROJECTIVE_POINT_WIDTH 0 NROWS_PER_PHASE (0 : F),
      Assertion.periodic (3 * PROJECTIVE_POINT_WIDTH + 1) 0 NROWS_PER_PHASE (0 : F),
      Assertion.periodic (5 * PROJECTIVE_POINT_WIDTH + 2) 0 NROWS_PER_PHASE (0 : F)]
  ++ ((List.range 4).map (fun i =>
    Assertion.periodic (i + 5 * PROJECTIVE_POINT_WIDTH + 3) 0 CDS_CYCLE_LENGTH (0 : F)))
  ++ ((List.range proofs.length).map (fun i =>
    Assertion.single (5 * PROJECTIVE_POINT_WIDTH + 7) (i * CDS_CYCLE_LENGTH)
      ((i % 256 : ℕ) : F)))
  ++ ((List.range' 1 (HASH_STATE_WIDTH - 1)).map (fun i =>
    Assertion.periodic (i + 5 * PROJECTIVE_POINT_WIDTH + 7) 0 CDS_CYCLE_LENGTH (0 : F)))
  ++ ((List.range AFFINE_POINT_WIDTH).flatMap (fun i =>
    [Assertion.sequence (i + PROJECTIVE_POINT_WIDTH + 1) (SCALAR_MUL_LENGTH + 1)
       NROWS_PER_PHASE (transposeProofPoints1 pairs i),
     Assertion.sequence (i + 2 * PROJECTIVE_POINT_WIDTH + 1) (SCALAR_MUL_LENGTH + 1)
       NROWS_PER_PHASE (transposeProofPoints2 pairs i)]))
  ++ ((List.range POINT_COORDINATE_WIDTH).flatMap (fun i =>
    [Assertion.sequence i (CDS_CYCLE_LENGTH - 1) CDS_CYCLE_LENGTH
       (transposeProofPoints3 pairs i),
     Assertion.sequence (i + AFFINE_POINT_WIDTH) (CDS_CYCLE_LENGTH - 1) CDS_CYCLE_LENGTH
       (transposeProofPoints3 pairs (i + POINT_COORDINATE_WIDTH))]))

/-- The register/value pairs of `sequence` assertions starting at a given
step. -/
def sequenceValuesAt (as : List (Assertion F)) (firstStep : ℕ) :
    List (ℕ × List F) :=
  as.filterMap (fun a =>
    match a with
    | .sequence r fs _ vs => if fs = firstStep then some (r, vs) else none
    | _ => none)

lemma sequenceValuesAt_append (a b : List (Assertion F)) (fs : ℕ) :
    sequenceValuesAt (a ++ b) fs = sequenceValuesAt a fs ++ sequenceValuesAt b fs :=
  List.filterMap_append ..

lemma sequenceValuesAt_eq_nil (l : List (Assertion F)) (fs : ℕ)
    (h : ∀ a ∈ l, ∀ r s stride vs, a = Assertion.sequence r s stride vs → s ≠ fs) :
    sequenceValuesAt l fs = [] := by
  rw [sequenceValuesAt, List.filterMap_eq_nil_iff]
  intro a ha
  match a with
  | .single r s v => rfl
  | .periodic r f s v => rfl
  | .sequence r s stride vs =>
      have := h _ ha r s stride vs rfl
      simp [this]

/-- The cycle-end extraction of the CDS assertions: only the final
end-of-cycle group starts at step `CDS_CYCLE_LENGTH − 1`, and its values are
the output entries `outputs[i][4·APW + j]`, one per item. -/
lemma sequenceValuesAt_cdsGetAssertions (proofs outputs : List (ℕ → F)) :
    sequenceValuesAt (cdsGetAssertions proofs outputs) (CDS_CYCLE_LENGTH - 1) =
      (List.range POINT_COORDINATE_WIDTH).flatMap (fun i =>
        [(i, (proofs.zip outputs).map (fun po =>
            po.2 (i + 4 * AFFINE_POINT_WIDTH))),
         (i + AFFINE_POINT_WIDTH, (proofs.zip outputs).map (fun po =>
            po.2 (i + POINT_COORDINATE_WIDTH + 4 * AFFINE_POINT_WIDTH)))]) := by
  rw [cdsGetAssertions]
  simp only [sequenceValuesAt_append]
  rw [sequenceValuesAt_eq_nil _ _ (by
    intro a ha r s stride vs he
    subst he
    simp only [List.mem_flatMap, List.mem_range] at ha
    obtain ⟨i, _, hmem⟩ := ha
    simp at hmem)]
  rw [sequenceValuesAt_eq_nil _ _ (by
    intro a ha r s stride vs he
    subst he
    simp at ha)]
  rw [sequenceValuesAt_eq_nil _ _ (by
    intro a ha r s stride vs he
    subst he
    simp only [List.mem_map, List.mem_range] at ha
    obtain ⟨i, _, hmem⟩ := ha
    simp at hmem)]
  rw [sequenceValuesAt_eq_nil _ _ (by
    intro a ha r s stride vs he
    subst he
    simp only [List.mem_map, List.mem_range] at ha
    obtain ⟨i, _, hmem⟩ := ha
    simp at hmem)]
  rw [sequenceValuesAt_eq_nil _ _ (by
    intro a ha r s stride vs he
    subst he
    simp only [List.mem_map, List.mem_range'] at ha
    obtain ⟨i, _, hmem⟩ := ha
    simp at hmem)]
  rw [sequenceValuesAt_eq_nil _ _ (by
    intro a ha r s stride vs he
    subst he
    simp only [List.mem_flatMap, List.mem_range] at ha
    obtain ⟨i, _, hmem⟩ := ha
    simp only [List.mem_cons, List.mem_singleton] at hmem
    rcases hmem with h | h | h
    · cases h
      decide
    · cases h
      decide
    · exact absurd h (by simp))]
  simp only [List.nil_append]
  induction (List.range POINT_COORDINATE_WIDTH) with
  | nil => rfl
  | cons i rest ih =>
      simp only [List.flatMap_cons, sequenceValuesAt_append, ih]
      congr 1

instance : Fact (1 < f63Modulus) := ⟨by norm_num [f63Modulus]⟩

/-- The claim of C1, literally: the end-of-cycle (cycle-closing) assertions
pin the first register group to the identity point of the curve group, i.e.
to coordinates that are fixed constants of the curve — one per register,
the same for every item and independent of the public inputs. -/
def claimC1Statement : Prop :=
  ∃ idCoord : ℕ → F,
    ∀ (proofs outputs : List (ℕ → F)) (r : ℕ) (vs : List F),
      (r, vs) ∈ sequenceValuesAt (cdsGetAssertions proofs outputs)
        (CDS_CYCLE_LENGTH - 1) →
      vs = List.replicate proofs.length (idCoord r)

/-- C1 counterexample: the cycle-end assertion values are the caller-supplied
output entries, not fixed identity coordinates: whatever constants the
identity would have, an `outputs` array holding `idCoord 0 + 1` in the
`(c − d1 − d2)·vk` section makes the register-0 assertion differ from them. -/
theorem cds_cycle_closing_counterexample : ¬ claimC1Statement := by
  rintro ⟨idCoord, H⟩
  have hmem : ((0 : ℕ), [idCoord 0 + 1]) ∈
      sequenceValuesAt
        (cdsGetAssertions [fun _ => 0] [fun _ => idCoord 0 + 1])
        (CDS_CYCLE_LENGTH - 1) := by
    rw [sequenceValuesAt_cdsGetAssertions]
    refine List.mem_flatMap.2 ⟨0, by decide, ?_⟩
    simp
  have h := H _ _ _ _ hmem
  simp only [List.length_singleton, List.replicate_one, List.cons.injEq,
    and_true] at h
  have h2 := congrArg (fun x => x - idCoord 0) h
  simp at h2

/-- C1, amended: the cycle-closing check pins the x and z coordinates of the
first register group at each cycle's last row to the caller-supplied output
entries `outputs[item][4·AFFINE_POINT_WIDTH + j]` (the claimed coordinates
of `(c − d1 − d2)·vk` from `transpose_proof_points`); it equals the identity
only if the aggregation layer supplies the identity's coordinates there. -/
theorem cds_cycle_closing_amended (proofs outputs : List (ℕ → F)) :
    sequenceValuesAt (cdsGetAssertions proofs outputs) (CDS_CYCLE_LENGTH - 1) =
      (List.range POINT_COORDINATE_WIDTH).flatMap (fun i =>
        [(i, (proofs.zip outputs).map (fun po =>
            po.2 (i + 4 * AFFINE_POINT_WIDTH))),
         (i + AFFINE_POINT_WIDTH, (proofs.zip outputs).map (fun po =>
            po.2 (i + POINT_COORDINATE_WIDTH + 4 * AFFINE_POINT_WIDTH)))]) :=
  sequenceValuesAt_cdsGetAssertions proofs outputs

/-! ## On-chain verifier entry points (`verifier/mod.rs`)

`verify_register_proof` and `verify_cast_proof` translated with explicit
Rust slice-indexing semantics: `s[a..b]` panics when the range is out of
bounds, modelled by `Option` with `none` for a panic, wrapped around the
`Result` the functions are supposed to return.  The external Schnorr/CDS
public-input parsers, `StarkProof::from_bytes` and `winterfell::verify` are
parameters. -/

/-- `verifier/constants.rs`: bytes of a serialized base-field element. -/
def BYTES_PER_ELEMENT : ℕ := 8

/-- `verifier/constants.rs`: bytes of an Ethereum address. -/
def BYTES_PER_ADDRESS : ℕ := 20

/-- `verifier/constants.rs`: bytes of a serialized scalar. -/
def BYTES_PER_SCALAR : ℕ := 32

/-- `verifier/constants.rs`: bytes of a Schnorr signature. -/
def BYTES_PER_SIGNATURE : ℕ :=
  POINT_COORDINATE_WIDTH * BYTES_PER_ELEMENT + BYTES_PER_SCALAR

/-- Modelled from the spec: `BYTES_PER_VOTING_KEY` (its defining constants
module is not among the sources); a voting key is an affine point of
`AFFINE_POINT_WIDTH` elements of `BYTES_PER_ELEMENT` bytes. -/
def BYTES_PER_VOTING_KEY : ℕ := AFFINE_POINT_WIDTH * BYTES_PER_ELEMENT

/-- Rust slice indexing `s[a..b]`: `none` models the out-of-bounds panic. -/
def rustSlice (s : List ℕ) (a b : ℕ) : Option (List ℕ) :=
  if a ≤ b ∧ b ≤ s.length then some ((s.drop a).take (b - a)) else none

/-- `verify_register_proof` (`verifier/mod.rs`): parses the registration
count from the first four bytes, rebuilds the Merkle and Schnorr public
inputs from prefixes of the payload, deserializes the two STARK proofs, and
returns whether both verify.  Out-of-bounds slicing panics (`none`). -/
def verifyRegisterProof {σ π : Type}
    (schnorrFromBytes : List ℕ → Except DeserializationError σ)
    (starkFromBytes : List ℕ → Except DeserializationError π)
    (verifyMerkle : π → MerklePublicInputs → Bool)
    (verifySchnorr : π → σ → Bool)
    (elgRootBytes registerProof : List ℕ) :
    Option (Except DeserializationError Bool) :=
  match rustSlice registerProof 0 4 with
  | none => none
  | some tmp =>
    let numRegs := leVal tmp
    let bound := 4 + BYTES_PER_VOTING_KEY * numRegs
    match rustSlice registerProof 0 bound with
    | none => none
    | some prefix1 =>
      match merklePublicInputsFromBytes (elgRootBytes ++ prefix1) with
      | .error e => some (.error e)
      | .ok mpi =>
        let bound2 := bound + (BYTES_PER_ADDRESS + BYTES_PER_SIGNATURE) * numRegs
        match rustSlice registerProof 0 bound2 with
        | none => none
        | some prefix2 =>
          match schnorrFromBytes prefix2 with
          | .error e => some (.error e)
          | .ok spi =>
            match rustSlice registerProof bound2 (bound2 + 4) with
            | none => none
            | some tmp2 =>
              let merkleProofNBytes := leVal tmp2
              let bound3 := bound2 + 4
              match rustSlice registerProof bound3 (bound3 + merkleProofNBytes) with
              | none => none
              | some merkleProofBytes =>
                match starkFromBytes merkleProofBytes with
                | .error e => some (.error e)
                | .ok merkleProof =>
                  match rustSlice registerProof (bound3 + merkleProofNBytes)
                      registerProof.length with
                  | none => none
                  | some schnorrProofBytes =>
                    match starkFromBytes schnorrProofBytes with
                    | .error e => some (.error e)
                    | .ok schnorrProof =>
                      some (.ok (verifyMerkle merkleProof mpi &&
                        verifySchnorr schnorrProof spi))

/-- `verify_cast_proof` (`verifier/mod.rs`): checks the CDS proof count
against the stored voting-key count, rebuilds the CDS public inputs from the
stored keys plus the payload, deserializes the STARK proof and returns
whether it verifies.  Out-of-bounds slicing panics (`none`). -/
def verifyCastProof {γ π : Type}
    (cdsFromBytes : List ℕ → Except DeserializationError γ)
    (starkFromBytes : List ℕ → Except DeserializationError π)
    (verifyCds : π → γ → Bool)
    (votingKeys castProof : List ℕ) :
    Option (Except DeserializationError Bool) :=
  match rustSlice castProof 0 4 with
  | none => none
  | some tmp =>
    let numProofs := leVal tmp
    match rustSlice votingKeys 0 4 with
    | none => none
    | some tmp2 =>
      if numProofs ≠ leVal tmp2 then some (.error .invalidValue)
      else
        match rustSlice castProof 4 castProof.length with
        | none => none
        | some castTail =>
          match cdsFromBytes (votingKeys ++ castTail) with
          | .error e => some (.error e)
          | .ok cdsPubInputs =>
            let bound := 4 + numProofs *
              (2 * 5 * AFFINE_POINT_WIDTH * BYTES_PER_ELEMENT)
            match rustSlice castProof bound castProof.length with
            | none => none
            | some proofBytes =>
              match starkFromBytes proofBytes with
              | .error e => some (.error e)
              | .ok cdsProof => some (.ok (verifyCds cdsProof cdsPubInputs))

/-- C5 (code bug): on the empty byte slice, both verifier entry points hit
the unchecked slice `proof[..4]` and panic instead of returning a typed
`Result`, whatever the external parsers and verifiers do. -/
theorem verifier_entry_points_panic_on_empty_input {σ γ π : Type}
    (schnorrFromBytes : List ℕ → Except DeserializationError σ)
    (cdsFromBytes : List ℕ → Except DeserializationError γ)
    (starkFromBytes : List ℕ → Except DeserializationError π)
    (verifyMerkle : π → MerklePublicInputs → Bool)
    (verifySchnorr : π → σ → Bool)
    (verifyCds : π → γ → Bool)
    (elgRootBytes votingKeys : List ℕ) :
    verifyRegisterProof schnorrFromBytes starkFromBytes verifyMerkle
        verifySchnorr elgRootBytes [] = none ∧
    verifyCastProof cdsFromBytes starkFromBytes verifyCds votingKeys [] =
      none := by
  constructor
  · rw [verifyRegisterProof]
    rfl
  · rw [verifyCastProof]
    rfl

/-! ## Trace construction (`TraceTable::new`/`fill`/`fragments`, provers)

`TraceTable::fill(init, update)` builds row 0 with `init` and row `s + 1`
from row `s` with `update s`; `fragments(c)` splits the table into
independent per-item chunks of `c` rows, each filled the same way.  Rust
`debug_assert!`/`assert!` aborts are modelled as `Except.error` returned
before any row is built; Rust `is_power_of_two` is `natIsPowerOfTwo`. -/

/-- `u64::is_power_of_two`. -/
def natIsPowerOfTwo (n : ℕ) : Bool := decide (∃ k, k ≤ n ∧ 2 ^ k = n)

/-- Rows of one `fill` call: the current state, then the rows obtained by
repeatedly applying the update function. -/
def fillRowsAux (update : ℕ → List F → List F) :
    ℕ → ℕ → List F → List (List F)
  | 0, _, _ => []
  | n + 1, step, s => s :: fillRowsAux update n (step + 1) (update step s)

/-- `TraceTable::fill`: `length` rows from the initial state. -/
def fillRows (length : ℕ) (init : List F) (update : ℕ → List F → List F) :
    List (List F) :=
  fillRowsAux update length 0 init

lemma fillRowsAux_length (update : ℕ → List F → List F) (n step : ℕ)
    (s : List F) : (fillRowsAux update n step s).length = n := by
  induction n generalizing step s with
  | zero => rfl
  | succ n ih => simp [fillRowsAux, ih]

lemma fillRows_length (L : ℕ) (init : List F)
    (update : ℕ → List F → List F) : (fillRows L init update).length = L :=
  fillRowsAux_length ..

/-! ### Tally prover (`experimental` `tally/prover.rs`) -/

/-- `TallyProver::build_trace` (`tally/prover.rs`): debug assertions on the
witness shape (at least two votes, a power of two, below the field modulus,
tally within bounds), then one row per vote: start at `(N − 2t)·G` with the
not-at-infinity flag, add one vote per step via mixed addition
(`utils/ecc::compute_add_mixed`, parameter `addMixed`), reducing to affine
(`utils/ecc::reduce_to_affine`, parameter `reduceToAffine`) on the final
step. -/
def tallyBuildTrace (q : ℕ) [NeZero q] (coordsOf : ZMod q → List F)
    (addMixed : List F → List F → List F) (reduceToAffine : List F → List F)
    (encryptedVotes : List (List F)) (tallyResult : ℕ) :
    Except String (List (List F)) :=
  let numVotes := encryptedVotes.length
  if ¬ 2 ≤ numVotes then
    .error "Number of proofs cannot be less than 2."
  else if ¬ natIsPowerOfTwo numVotes then
    .error "Number of valid encrypted voted should be a power of two."
  else if ¬ numVotes < f63Modulus then
    .error "Number of votes cannot be greater than base field modulus."
  else if ¬ tallyResult ≤ numVotes then
    .error "Invalid tally result"
  else
    let negD : ZMod q := (numVotes : ZMod q) - 2 * (tallyResult : ZMod q)
    let negDG : ZMod q := negD * cyclicGenerator q
    let c := coordsOf negDG
    let init := (List.range TALLY_TRACE_WIDTH).map (fun i =>
      if i < AFFINE_POINT_WIDTH then c.getD i 0
      else if i = AFFINE_POINT_WIDTH then (if negDG ≠ 0 then 1 else 0)
      else 0)
    .ok (fillRows numVotes init (fun step s =>
      if step < numVotes - 2 then addMixed s (encryptedVotes.getD step [])
      else
        let s' := addMixed s (encryptedVotes.getD step [])
        ((reduceToAffine (s'.take PROJECTIVE_POINT_WIDTH)).take
          AFFINE_POINT_WIDTH) ++ s'.drop AFFINE_POINT_WIDTH))

/-! ### Merkle prover (`experimental` `merkle/prover.rs`, `merkle/trace.rs`) -/

/-- `init_merkle_verification_state` (`merkle/trace.rs`): zero row with the
key's x-coordinates in registers `1 .. POINT_COORDINATE_WIDTH + 1`. -/
def initMerkleState (votingKey : ℕ → F) : List F :=
  (List.range MERKLE_TRACE_WIDTH).map (fun i =>
    if 1 ≤ i ∧ i < POINT_COORDINATE_WIDTH + 1 then votingKey (i - 1) else 0)

/-- `update_merkle_verification_state` (`merkle/trace.rs`): a Rescue round
(`rescue::apply_round`, parameter `applyRound`) on the hash-state registers
during the first `NUM_HASH_ROUNDS` steps of every hash cycle; on the
injection step the next message chunk enters the capacity half (position bit
0) or displaces the rate half into the capacity (position bit 1), and the
position bit is written to register 0. -/
def updateMerkleState (applyRound : List F → ℕ → List F)
    (hashMessage : ℕ → F) (hashIndex step : ℕ) (s : List F) : List F :=
  let rescueStep := step % HASH_CYCLE_LENGTH
  if rescueStep < NUM_HASH_ROUNDS then
    s.take 1 ++ applyRound ((s.drop 1).take HASH_STATE_WIDTH) step
  else
    let index := step / HASH_CYCLE_LENGTH
    let bit := (hashIndex >>> index) % 2
    let chunk := (List.range HASH_RATE_WIDTH).map (fun j =>
      hashMessage (HASH_RATE_WIDTH * index + j))
    if bit = 0 then
      ((bit : F) :: (s.drop 1).take HASH_RATE_WIDTH) ++ chunk
    else
      ((bit : F) :: chunk) ++ (s.drop 1).take HASH_RATE_WIDTH

/-- `MerkleProver::build_trace` (`merkle/prover.rs`): a debug assertion that
the branch count is a power of two; index accesses into the key and
hash-index vectors panic when those are shorter than the branch vector (also
modelled as an error); then one `MERKLE_CYCLE_LENGTH`-row fragment per
branch, each hashing the key and merging the branch nodes, with the branch
index pre-shifted by one bit. -/
def merkleBuildTrace (applyRound : List F → ℕ → List F)
    (votingKeys : List (ℕ → F)) (branches : List (ℕ → F))
    (hashIndices : List ℕ) : Except String (List (List F)) :=
  if ¬ natIsPowerOfTwo branches.length then
    .error "Number of Merkle proofs to verify must be a power of two."
  else if branches.length > hashIndices.length ∨
      branches.length > votingKeys.length then
    .error "index out of bounds"
  else
    .ok ((List.range branches.length).flatMap (fun i =>
      let hashIndex := hashIndices.getD i 0 * 2
      let votingKey := votingKeys.getD i (fun _ => 0)
      let hashMessage : ℕ → F := fun j =>
        if j < POINT_COORDINATE_WIDTH then votingKey (j + POINT_COORDINATE_WIDTH)
        else if HASH_RATE_WIDTH ≤ j ∧ j < (TREE_DEPTH + 1) * HASH_RATE_WIDTH then
          branches.getD i (fun _ => 0) (j - HASH_RATE_WIDTH)
        else 0
      fillRows MERKLE_CYCLE_LENGTH (initMerkleState votingKey)
        (updateMerkleState applyRound hashMessage hashIndex)))

/-! ### Schnorr prover (`schnorr/prover.rs`) -/

/-- `SchnorrProver::build_trace` (`schnorr/prover.rs`): no shape check; one
`SIG_CYCLE_LENGTH`-row fragment per voting key, initialized from the
signature (`init_sig_verification_state`, parameter `initSigState`) and
advanced with the per-item signature data (`build_sig_info` and
`update_sig_verification_state`, parameters `buildSigInfo` and
`updateSigState`; the signature trace module is not among the sources). -/
def schnorrBuildTrace {α β γ : Type} [Inhabited α] [Inhabited β]
    (buildSigInfo : (ℕ → F) → α → β → γ)
    (initSigState : β → List F)
    (updateSigState : ℕ → γ → (ℕ → F) → List F → List F)
    (votingKeys : List (ℕ → F)) (addresses : List α) (signatures : List β) :
    List (List F) :=
  (List.range votingKeys.length).flatMap (fun i =>
    let vkey := votingKeys.getD i (fun _ => 0)
    let info := buildSigInfo vkey (addresses.getD i default)
      (signatures.getD i default)
    fillRows SIG_CYCLE_LENGTH (initSigState (signatures.getD i default))
      (fun step s => updateSigState step info vkey s))

lemma length_flatMap_const {δ : Type} (l : List δ) (f : δ → List (List F))
    (c : ℕ) (h : ∀ i ∈ l, (f i).length = c) :
    (l.flatMap f).length = l.length * c := by
  induction l with
  | nil => simp
  | cons a l ih =>
      simp only [List.flatMap_cons, List.length_append, List.length_cons,
        h a (by simp), ih (fun i hi => h i (by simp [hi]))]
      ring

/-- C7 (confirmed): for well-shaped witnesses the trace lengths are:
exactly the vote count for the Tally AIR, and per-item cycle length times
item count for the Schnorr and Merkle AIRs — hence powers of two when the
item count is one. -/
theorem build_trace_lengths (q : ℕ) [NeZero q] {α β γ : Type}
    [Inhabited α] [Inhabited β]
    (coordsOf : ZMod q → List F)
    (addMixed : List F → List F → List F) (reduceToAffine : List F → List F)
    (applyRound : List F → ℕ → List F)
    (buildSigInfo : (ℕ → F) → α → β → γ) (initSigState : β → List F)
    (updateSigState : ℕ → γ → (ℕ → F) → List F → List F)
    (encryptedVotes : List (List F)) (t : ℕ)
    (votingKeysS : List (ℕ → F)) (addresses : List α) (signatures : List β)
    (votingKeysM branches : List (ℕ → F)) (hashIndices : List ℕ)
    (h2 : 2 ≤ encryptedVotes.length)
    (hp2 : natIsPowerOfTwo encryptedVotes.length = true)
    (hM : encryptedVotes.length < f63Modulus) (ht : t ≤ encryptedVotes.length)
    (hmp2 : natIsPowerOfTwo branches.length = true)
    (hmi : branches.length ≤ hashIndices.length)
    (hmk : branches.length ≤ votingKeysM.length) :
    (∃ rows, tallyBuildTrace q coordsOf addMixed reduceToAffine
        encryptedVotes t = .ok rows ∧ rows.length = encryptedVotes.length) ∧
    ((schnorrBuildTrace buildSigInfo initSigState updateSigState votingKeysS
        addresses signatures).length = SIG_CYCLE_LENGTH * votingKeysS.length ∧
      ∀ k, votingKeysS.length = 2 ^ k →
        (schnorrBuildTrace buildSigInfo initSigState updateSigState
          votingKeysS addresses signatures).length = 2 ^ (10 + k)) ∧
    (∃ rows, merkleBuildTrace applyRound votingKeysM branches hashIndices =
        .ok rows ∧ rows.length = MERKLE_CYCLE_LENGTH * branches.length ∧
      ∀ k, branches.length = 2 ^ k → rows.length = 2 ^ (7 + k)) := by
  have hschnorr : (schnorrBuildTrace buildSigInfo initSigState updateSigState
      votingKeysS addresses signatures).length =
      votingKeysS.length * SIG_CYCLE_LENGTH := by
    rw [schnorrBuildTrace]
    rw [length_flatMap_const _ _ SIG_CYCLE_LENGTH (fun i _ => by
      show (fillRows SIG_CYCLE_LENGTH _ _).length = SIG_CYCLE_LENGTH
      exact fillRows_length ..)]
    rw [List.length_range]
  refine ⟨?_, ⟨?_, ?_⟩, ?_⟩
  · rw [tallyBuildTrace]
    rw [if_neg (not_not_intro h2), if_neg (by simp [hp2]),
      if_neg (not_not_intro hM), if_neg (not_not_intro ht)]
    exact ⟨_, rfl, fillRows_length ..⟩
  · rw [hschnorr, Nat.mul_comm]
  · intro k hk
    rw [hschnorr, hk, SIG_CYCLE_LENGTH]
    rw [show (1024 : ℕ) = 2 ^ 10 by norm_num, ← pow_add]
    ring_nf
  · rw [merkleBuildTrace]
    rw [if_neg (by simp [hmp2]), if_neg (by omega)]
    refine ⟨_, rfl, ?_, ?_⟩
    · rw [length_flatMap_const _ _ MERKLE_CYCLE_LENGTH (fun i _ => by
        show (fillRows MERKLE_CYCLE_LENGTH _ _).length = MERKLE_CYCLE_LENGTH
        exact fillRows_length ..)]
      rw [List.length_range, Nat.mul_comm]
    · intro k hk
      rw [length_flatMap_const _ _ MERKLE_CYCLE_LENGTH (fun i _ => by
        show (fillRows MERKLE_CYCLE_LENGTH _ _).length = MERKLE_CYCLE_LENGTH
        exact fillRows_length ..)]
      rw [List.length_range, hk]
      rw [show MERKLE_CYCLE_LENGTH = 2 ^ 7 by decide, ← pow_add]
      ring_nf

/-- Witness for C7: two empty-coordinate votes with claimed tally 1 and
trivial gadget parameters; the Tally trace has exactly two rows. -/
theorem build_trace_lengths_witness :
    2 ≤ ([[], []] : List (List F)).length ∧
    natIsPowerOfTwo ([[], []] : List (List F)).length = true ∧
    ∃ rows, tallyBuildTrace 5 (fun _ => []) (fun s _ => s) id [[], []] 1 =
      .ok rows ∧ rows.length = 2 := by
  have h := build_trace_lengths 5 (α := Unit) (β := Unit) (γ := Unit)
    (fun _ => []) (fun s _ => s) id (fun s _ => s) (fun _ _ _ => ())
    (fun _ => []) (fun _ _ _ s => s) [[], []] 1 [] [] []
    [fun _ => 0, fun _ => 0] [fun _ => 0, fun _ => 0] [0, 0]
    (by decide) (by decide) (by norm_num [f63Modulus]) (by decide)
    (by decide) (by decide) (by decide)
  exact ⟨by decide, by decide, h.1⟩

/-- The claim of C8, literally: every malformed witness shape — item count
not a power of two, item count below 2, inconsistent vector lengths, or
(for Tally) a tally exceeding the vote count — makes the prover abort with
an error before building a trace.  Stated for the Tally and Merkle provers. -/
def claimC8Statement : Prop :=
  (∀ (q : ℕ) [NeZero q] (coordsOf : ZMod q → List F)
      (addMixed : List F → List F → List F) (reduceToAffine : List F → List F)
      (encryptedVotes : List (List F)) (t : ℕ),
    (¬ 2 ≤ encryptedVotes.length ∨
      natIsPowerOfTwo encryptedVotes.length = false ∨
      ¬ t ≤ encryptedVotes.length) →
    ∃ e, tallyBuildTrace q coordsOf addMixed reduceToAffine encryptedVotes t =
      .error e) ∧
  (∀ (applyRound : List F → ℕ → List F) (votingKeys branches : List (ℕ → F))
      (hashIndices : List ℕ),
    (¬ 2 ≤ branches.length ∨ natIsPowerOfTwo branches.length = false ∨
      hashIndices.length ≠ branches.length ∨
      votingKeys.length ≠ branches.length) →
    ∃ e, merkleBuildTrace applyRound votingKeys branches hashIndices =
      .error e)

/-- C8 counterexample: two branches and keys with three hash indices is a
malformed witness (inconsistent vector lengths), yet the Merkle prover
builds its trace without any abort. -/
theorem prover_shape_claim_counterexample : ¬ claimC8Statement := by
  rintro ⟨_, Hm⟩
  obtain ⟨e, he⟩ := Hm (fun s _ => s) [fun _ => 0, fun _ => 0]
    [fun _ => 0, fun _ => 0] [0, 0, 0]
    (Or.inr (Or.inr (Or.inl (by decide))))
  have hok : ∃ rows, merkleBuildTrace (fun s _ => s) [fun _ => 0, fun _ => 0]
      [fun _ => 0, fun _ => 0] [0, 0, 0] = .ok rows := ⟨_, rfl⟩
  obtain ⟨rows, hr⟩ := hok
  rw [he] at hr
  exact Except.noConfusion hr

/-- C8, amended: the Tally prover aborts (via debug assertions, before any
trace row) exactly when the vote count is below 2, not a power of two, not
below the field modulus, or exceeded by the claimed tally; the Merkle prover
checks only that the branch count is a power of two, aborting otherwise or
panicking when the key or hash-index vector is shorter than the branch
vector — other malformed shapes, such as surplus hash indices or an item
count of 1, build a trace without aborting. -/
theorem prover_shape_checks_amended :
    (∀ (q : ℕ) [NeZero q] (coordsOf : ZMod q → List F)
        (addMixed : List F → List F → List F)
        (reduceToAffine : List F → List F)
        (encryptedVotes : List (List F)) (t : ℕ),
      (∃ e, tallyBuildTrace q coordsOf addMixed reduceToAffine
          encryptedVotes t = .error e) ↔
        ¬(2 ≤ encryptedVotes.length ∧
          natIsPowerOfTwo encryptedVotes.length = true ∧
          encryptedVotes.length < f63Modulus ∧ t ≤ encryptedVotes.length)) ∧
    (∀ (applyRound : List F → ℕ → List F)
        (votingKeys branches : List (ℕ → F)) (hashIndices : List ℕ),
      (∃ e, merkleBuildTrace applyRound votingKeys branches hashIndices =
          .error e) ↔
        (¬ natIsPowerOfTwo branches.length = true ∨
          hashIndices.length < branches.length ∨
          votingKeys.length < branches.length)) := by
  constructor
  · intro q _ coordsOf addMixed reduceToAffine encryptedVotes t
    rw [tallyBuildTrace]
    by_cases hc1 : 2 ≤ encryptedVotes.length
    · rw [if_neg (not_not_intro hc1)]
      by_cases hc2 : natIsPowerOfTwo encryptedVotes.length = true
      · rw [if_neg (not_not_intro hc2)]
        by_cases hc3 : encryptedVotes.length < f63Modulus
        · rw [if_neg (not_not_intro hc3)]
          by_cases hc4 : t ≤ encryptedVotes.length
          · rw [if_neg (not_not_intro hc4)]
            refine iff_of_false ?_ (by tauto)
            rintro ⟨e, he⟩
            exact Except.noConfusion he
          · rw [if_pos hc4]
            exact iff_of_true ⟨_, rfl⟩ (by tauto)
        · rw [if_pos hc3]
          exact iff_of_true ⟨_, rfl⟩ (by tauto)
      · rw [if_pos hc2]
        exact iff_of_true ⟨_, rfl⟩ (by tauto)
    · rw [if_pos hc1]
      exact iff_of_true ⟨_, rfl⟩ (by tauto)
  · intro applyRound votingKeys branches hashIndices
    rw [merkleBuildTrace]
    by_cases hm1 : natIsPowerOfTwo branches.length = true
    · rw [if_neg (not_not_intro hm1)]
      by_cases hm2 : branches.length > hashIndices.length ∨
          branches.length > votingKeys.length
      · rw [if_pos hm2]
        refine iff_of_true ⟨_, rfl⟩ ?_
        rcases hm2 with hm2 | hm2
        · exact Or.inr (Or.inl (by omega))
        · exact Or.inr (Or.inr (by omega))
      · rw [if_neg hm2]
        refine iff_of_false ?_ ?_
        · rintro ⟨e, he⟩
          exact Except.noConfusion he
        · push_neg at hm2
          rintro (h | h | h)
          · exact h hm1
          · omega
          · omega
    · rw [if_pos hm1]
      exact iff_of_true ⟨_, rfl⟩ (Or.inl hm1)

/-- Witness for the amended C8 theorem: a single branch with an empty
hash-index vector makes the Merkle prover abort. -/
theorem prover_shape_checks_amended_witness :
    ∃ e, merkleBuildTrace (fun s _ => s) [fun _ => 0] [fun _ => 0]
      ([] : List ℕ) = .error e :=
  (prover_shape_checks_amended.2 (fun s _ => s) [fun _ => 0] [fun _ => 0]
    []).2 (Or.inr (Or.inl (by decide)))

/-! ## Voter registrar serialization (`aggregator/register.rs`)

`VoterRegistar::write_into` and `VoterRegistar::read_from` at byte level.
Curve scalars (external winterfell type) are 32 little-endian bytes of a
canonical value below the scalar-field order `qs`, which is a parameter;
Ethereum addresses are 20 raw bytes. -/

/-- A `VoterRegistar` (`aggregator/register.rs`), with scalars as natural
numbers and addresses as 20-byte lists; the cached proof and dirty flag are
not serialized fields. -/
structure VoterRegistar where
  elg_root : List F
  num_elg_voters : ℕ
  voting_keys : List (List F)
  merkle_branches : List (List F)
  hash_indices : List ℕ
  signatures : List (List F × ℕ)
  addresses : List (List ℕ)
  deriving DecidableEq

/-- `Serializable` for a scalar: 32 little-endian bytes. -/
def scalarBytes (v : ℕ) : List ℕ := leBytes 32 v

/-- `Scalar::read_from`: 32 bytes, rejecting non-canonical values. -/
def readScalar (qs : ℕ) (s : List ℕ) :
    Except DeserializationError (ℕ × List ℕ) := do
  let (bs, r) ← readBytes 32 s
  if leVal bs < qs then return (leVal bs, r)
  else throw .invalidValue

/-- `VoterRegistar::write_into` (`aggregator/register.rs`): eligible-voter
count, root, registration count, then per registration the voting key,
Merkle branch, hash index, signature point, signature scalar and address —
and no message field. -/
def voterRegistarToBytes (r : VoterRegistar) : List ℕ :=
  u32LEBytes (r.num_elg_voters % 2 ^ 32)
  ++ writeBatch r.elg_root
  ++ u32LEBytes (r.voting_keys.length % 2 ^ 32)
  ++ (List.range r.voting_keys.length).flatMap (fun i =>
    writeBatch (r.voting_keys.getD i [])
    ++ writeBatch (r.merkle_branches.getD i [])
    ++ u64LEBytes (r.hash_indices.getD i 0 % 2 ^ 64)
    ++ writeBatch (r.signatures.getD i ([], 0)).1
    ++ scalarBytes (r.signatures.getD i ([], 0)).2
    ++ r.addresses.getD i [])

/-- The registration loop of `VoterRegistar::read_from`: reads voting key,
branch, hash index, signature point, signature scalar, **a message of
`MSG_LENGTH` field elements** (collected but discarded), then the address. -/
def readRegistrations (qs : ℕ) :
    ℕ → List ℕ →
      Except DeserializationError
        ((List (List F) × List (List F) × List ℕ × List (List F × ℕ) ×
          List (List ℕ)) × List ℕ)
  | 0, s => .ok (([], [], [], [], []), s)
  | n + 1, s => do
    let (key, s) ← readBatch AFFINE_POINT_WIDTH s
    let (branch, s) ← readBatch (TREE_DEPTH * DIGEST_SIZE) s
    let (hashIndex, s) ← readU64 s
    let (sigR, s) ← readBatch POINT_COORDINATE_WIDTH s
    let (sigS, s) ← readScalar qs s
    let (_message, s) ← readBatch MSG_LENGTH s
    let (addr, s) ← readBytes BYTES_PER_ADDRESS s
    let (rest, s') ← readRegistrations qs n s
    return ((key :: rest.1, branch :: rest.2.1, hashIndex :: rest.2.2.1,
      (sigR, sigS) :: rest.2.2.2.1, addr :: rest.2.2.2.2), s')

/-- `VoterRegistar::read_from`/`from_bytes` (`aggregator/register.rs`). -/
def voterRegistarFromBytes (qs : ℕ) (s : List ℕ) :
    Except DeserializationError VoterRegistar := do
  let (numElg, s) ← readU32 s
  let (root, s) ← readBatch DIGEST_SIZE s
  let (numRegs, s) ← readU32 s
  let (regs, _) ← readRegistrations qs numRegs s
  return ⟨root, numElg, regs.1, regs.2.1, regs.2.2.1, regs.2.2.2.1,
    regs.2.2.2.2⟩

/-- The all-zero single-registration registrar used as failing input
(7-element root, 12-element key, 98-element branch, 6-element signature
point, zero scalar, 20-byte address). -/
def zeroRegistar : VoterRegistar :=
  ⟨List.replicate 7 0, 1, [List.replicate 12 0],
   [List.replicate 98 0], [0],
   [(List.replicate 6 0, 0)],
   [List.replicate 20 0]⟩

lemma readU64_append (m : ℕ) (hm : m < 2 ^ 64) (rest : List ℕ) :
    readU64 (u64LEBytes m ++ rest) = .ok (m, rest) := by
  have hlen : (u64LEBytes m).length = 8 := leBytes_length ..
  rw [readU64, show (8 : ℕ) = (u64LEBytes m).length from hlen.symm,
    readBytes_append]
  simp only [bind, Except.bind, u64LEBytes]
  rw [leVal_leBytes 8 m (by calc m < 2 ^ 64 := hm
    _ = 256 ^ 8 := by norm_num)]
  rfl

lemma readScalar_append (qs v : ℕ) (hv : v < 2 ^ 256) (hq : v < qs)
    (rest : List ℕ) : readScalar qs (scalarBytes v ++ rest) = .ok (v, rest) := by
  have hlen : (scalarBytes v).length = 32 := leBytes_length ..
  rw [readScalar, show (32 : ℕ) = (scalarBytes v).length from hlen.symm,
    readBytes_append]
  simp only [bind, Except.bind, scalarBytes]
  rw [leVal_leBytes 32 v (by calc v < 2 ^ 256 := hv
    _ = 256 ^ 32 := by norm_num)]
  rw [if_pos hq]
  rfl

lemma readRegistrations_zero_fails (qs : ℕ) (hq : 0 < qs) :
    readRegistrations qs 1
        ((List.replicate 12 (0 : F)).flatMap elementBytes ++
          ((List.replicate 98 (0 : F)).flatMap elementBytes ++
            (u64LEBytes 0 ++
              ((List.replicate 6 (0 : F)).flatMap elementBytes ++
                (scalarBytes 0 ++ List.replicate 20 0))))) =
      .error .unexpectedEOF := by
  rw [readRegistrations]
  rw [show AFFINE_POINT_WIDTH = (List.replicate 12 (0 : F)).length by decide,
    readBatch_append]
  simp only [bind, Except.bind]
  rw [show TREE_DEPTH * DIGEST_SIZE = (List.replicate 98 (0 : F)).length
      by decide,
    readBatch_append]
  simp only [bind, Except.bind]
  rw [readU64_append 0 (by norm_num)]
  simp only [bind, Except.bind]
  rw [show POINT_COORDINATE_WIDTH = (List.replicate 6 (0 : F)).length
      by decide,
    readBatch_append]
  simp only [bind, Except.bind]
  rw [readScalar_append qs 0 (by norm_num) hq]
  simp only [bind, Except.bind]
  rw [show readBatch MSG_LENGTH (List.replicate 20 0) =
    (.error .unexpectedEOF :
      Except DeserializationError (List F × List ℕ)) from rfl]

set_option maxRecDepth 100000 in
/-- C9 (code bug): for every scalar-field order admitting the zero scalar,
deserializing the bytes written for a registrar holding one (all-zero)
registration fails with EOF: `read_from` expects a `MSG_LENGTH`-element
message that `write_into` never writes, so it runs off the end of the
20-byte address tail. -/
theorem voter_registar_roundtrip_fails (qs : ℕ) (hq : 0 < qs) :
    voterRegistarFromBytes qs (voterRegistarToBytes zeroRegistar) =
      .error .unexpectedEOF := by
  have hb : voterRegistarToBytes zeroRegistar =
      u32LEBytes 1 ++
        ((List.replicate 7 (0 : F)).flatMap elementBytes ++
          (u32LEBytes 1 ++
            ((List.replicate 12 (0 : F)).flatMap elementBytes ++
              ((List.replicate 98 (0 : F)).flatMap elementBytes ++
                (u64LEBytes 0 ++
                  ((List.replicate 6 (0 : F)).flatMap elementBytes ++
                    (scalarBytes 0 ++ List.replicate 20 0))))))) := by
    rfl
  rw [voterRegistarFromBytes, hb]
  rw [readU32_append 1 (by norm_num)]
  simp only [bind, Except.bind]
  rw [show DIGEST_SIZE = (List.replicate 7 (0 : F)).length by decide,
    readBatch_append]
  simp only [bind, Except.bind]
  rw [readU32_append 1 (by norm_num)]
  simp only [bind, Except.bind]
  rw [readRegistrations_zero_fails qs hq]

/-- Witness for C9 at the concrete scalar-field order 7. -/
theorem voter_registar_roundtrip_fails_witness :
    0 < 7 ∧
    voterRegistarFromBytes 7 (voterRegistarToBytes zeroRegistar) =
      .error .unexpectedEOF :=
  ⟨by decide, voter_registar_roundtrip_fails 7 (by decide)⟩

end OpenVote
